import Mathlib

/-!
# traefik-plugin-prometheus: label sanitiser and request interceptor

A shallow embedding of `demo.go`.  Go strings are byte sequences, so a string
is a list of byte values; the regular-expression calls of `safeLabel` and
`normalizeUri` are embedded through the replacement loop of Go's `regexp`
package, which walks the subject rune by rune with `utf8.DecodeRuneInString`.
-/

set_option autoImplicit false

namespace PluginTraefik

/-! ## Go strings -/

/-- A Go string is a sequence of bytes. Byte values are natural numbers; every
function below treats a value above 255 like an invalid byte. -/
abbrev GoString := List Nat

/-- UTF-8 encoding of one code point, as the Go compiler encodes the runes of
a string literal. -/
def encodeRune (r : Nat) : GoString :=
  if r < 0x80 then [r]
  else if r < 0x800 then [0xC0 + r / 64, 0x80 + r % 64]
  else if r < 0x10000 then [0xE0 + r / 4096, 0x80 + r / 64 % 64, 0x80 + r % 64]
  else [0xF0 + r / 262144, 0x80 + r / 4096 % 64, 0x80 + r / 64 % 64, 0x80 + r % 64]

/-- The bytes of a string literal. -/
def lit (s : String) : GoString :=
  s.toList.flatMap (fun c => encodeRune c.toNat)

/-! ## `unicode/utf8` -/

/-- The value of `utf8.RuneError`. -/
def RuneError : Nat := 0xFFFD

/-- Lowest continuation byte (`locb`). -/
def locb : Nat := 0x80

/-- Highest continuation byte (`hicb`). -/
def hicb : Nat := 0xBF

/-- What the table `first` of `unicode/utf8` records for a leading byte: an
ASCII byte, an invalid leading byte, or the size of the sequence together with
the accepted range of the second byte. -/
inductive FirstInfo where
  | ascii : FirstInfo
  | invalid : FirstInfo
  | lead (size lo hi : Nat) : FirstInfo
  deriving DecidableEq, Repr

/-- The table `first` together with `acceptRanges`. -/
def first (b : Nat) : FirstInfo :=
  if b < 0x80 then .ascii
  else if b < 0xC2 then .invalid
  else if b < 0xE0 then .lead 2 locb hicb
  else if b = 0xE0 then .lead 3 0xA0 hicb
  else if b < 0xED then .lead 3 locb hicb
  else if b = 0xED then .lead 3 locb 0x9F
  else if b < 0xF0 then .lead 3 locb hicb
  else if b = 0xF0 then .lead 4 0x90 hicb
  else if b < 0xF4 then .lead 4 locb hicb
  else if b = 0xF4 then .lead 4 locb 0x8F
  else .invalid

/-- The function `utf8.DecodeRuneInString`: the first rune of the string and
its width in bytes; `(RuneError, 1)` for an invalid encoding and
`(RuneError, 0)` for the empty string. -/
def DecodeRuneInString : GoString → Nat × Nat
  | [] => (RuneError, 0)
  | s0 :: rest =>
    match first s0 with
    | .ascii => (s0, 1)
    | .invalid => (RuneError, 1)
    | .lead sz lo hi =>
      if rest.length + 1 < sz then (RuneError, 1)
      else
        match rest with
        | [] => (RuneError, 1)
        | s1 :: rest1 =>
          if s1 < lo ∨ hi < s1 then (RuneError, 1)
          else if sz ≤ 2 then ((s0 % 32) * 64 + s1 % 64, 2)
          else
            match rest1 with
            | [] => (RuneError, 1)
            | s2 :: rest2 =>
              if s2 < locb ∨ hicb < s2 then (RuneError, 1)
              else if sz ≤ 3 then ((s0 % 16) * 4096 + (s1 % 64) * 64 + s2 % 64, 3)
              else
                match rest2 with
                | [] => (RuneError, 1)
                | s3 :: _ =>
                  if s3 < locb ∨ hicb < s3 then (RuneError, 1)
                  else ((s0 % 8) * 262144 + (s1 % 64) * 4096 + (s2 % 64) * 64 + s3 % 64, 4)

/-! ## `regexp`: the replacement loop -/

/-- A compiled pattern, given by its matcher: at a search position (the rest of
the subject from there on) the length in bytes of the leftmost-first match that
starts at this position, or `none` when the pattern does not match there. None
of the patterns of this program matches the empty string. -/
abbrev Regexp := GoString → Option Nat

/-- The loop of `Regexp.replaceAll` for a replacement without `$`: at each
search position, a match is replaced and the search resumes at its end; without
a match the rune at this position is copied and the search resumes after it.
The first argument bounds the number of iterations. -/
def replaceAllFuel (re : Regexp) (repl : GoString) : Nat → GoString → GoString
  | 0, src => src
  | _ + 1, [] => []
  | fuel + 1, b :: rest =>
    match re (b :: rest) with
    | some n => repl ++ replaceAllFuel re repl fuel ((b :: rest).drop n)
    | none =>
      (b :: rest).take (DecodeRuneInString (b :: rest)).2
        ++ replaceAllFuel re repl fuel ((b :: rest).drop (DecodeRuneInString (b :: rest)).2)

/-- The method `Regexp.ReplaceAllString` for a replacement without `$`. Every
iteration of the loop consumes at least one byte, so the length of the subject
bounds the number of iterations. -/
def ReplaceAllString (re : Regexp) (src repl : GoString) : GoString :=
  replaceAllFuel re repl (src.length + 1) src

/-! ## The four patterns of `safeLabel` -/

/-- The class `\d`, ASCII digits. -/
def isDigit (b : Nat) : Bool := 48 ≤ b && b ≤ 57

/-- The class `[a-f0-9]`. -/
def isHex (b : Nat) : Bool := (97 ≤ b && b ≤ 102) || (48 ≤ b && b ≤ 57)

/-- The class `[a-zA-Z0-9_:/]`, tested on a rune. -/
def isWhitelisted (r : Nat) : Bool :=
  (97 ≤ r && r ≤ 122) || (65 ≤ r && r ≤ 90) || (48 ≤ r && r ≤ 57)
    || r = 95 || r = 58 || r = 47

/-- The pattern `/\d+`: a slash and the longest run of digits after it, which
must not be empty. -/
def reDigits : Regexp := fun s =>
  match s with
  | [] => none
  | b :: rest =>
    if b = 47 ∧ 0 < (rest.takeWhile isDigit).length then
      some (1 + (rest.takeWhile isDigit).length)
    else none

/-- Consume one given byte. -/
def expectByte (c : Nat) : GoString → Option GoString
  | [] => none
  | b :: rest => if b = c then some rest else none

/-- Consume exactly `n` bytes of the class `[a-f0-9]`. -/
def expectHex : Nat → GoString → Option GoString
  | 0, s => some s
  | _ + 1, [] => none
  | n + 1, b :: rest => if isHex b then expectHex n rest else none

/-- The pattern
`/[a-f0-9]{8}-[a-f0-9]{4}-[a-f0-9]{4}-[a-f0-9]{4}-[a-f0-9]{12}`: every match
is 37 bytes long. -/
def reUUID : Regexp := fun s =>
  ((((((((((expectByte 47 s).bind (expectHex 8)).bind (expectByte 45)).bind
    (expectHex 4)).bind (expectByte 45)).bind (expectHex 4)).bind
    (expectByte 45)).bind (expectHex 4)).bind (expectByte 45)).bind
    (expectHex 12)).map (fun _ => 37)

/-- The pattern `_{2,}`: the longest run of underscores, of length two at
least. -/
def reDoubleUnderscore : Regexp := fun s =>
  if 2 ≤ (s.takeWhile (fun b => b == 95)).length then
    some (s.takeWhile (fun b => b == 95)).length
  else none

/-- The pattern `[^a-zA-Z0-9_:/]`: one rune outside the whitelist, an invalid
byte (decoded as `RuneError` of width 1) included. -/
def reNotWhitelisted : Regexp := fun s =>
  match s with
  | [] => none
  | b :: rest =>
    if isWhitelisted (DecodeRuneInString (b :: rest)).1 then none
    else some (DecodeRuneInString (b :: rest)).2

/-! ## `strings.Trim` with a one-byte cutset -/

/-- The function `trimLeftByte` of package `strings`. -/
def trimLeftByte (s : GoString) (c : Nat) : GoString :=
  s.dropWhile (fun b => b == c)

/-- The function `trimRightByte` of package `strings`. -/
def trimRightByte (s : GoString) (c : Nat) : GoString :=
  s.rdropWhile (fun b => b == c)

/-- The call `strings.Trim(s, cutset)` for a cutset of one ASCII byte, the
branch `safeLabel` takes with the cutset `"_"`. -/
def TrimByte (s : GoString) (c : Nat) : GoString :=
  trimLeftByte (trimRightByte s c) c

/-! ## `demo.go` -/

/-- The function `normalizeUri`. -/
def normalizeUri (uri : GoString) : GoString :=
  ReplaceAllString reDigits uri (lit "/{id}")

/-- The function `safeLabel`. -/
def safeLabel (value : GoString) : GoString :=
  let value := ReplaceAllString reDigits value (lit "/:id")
  let value := ReplaceAllString reUUID value (lit "/:uuid")
  let value := ReplaceAllString reDoubleUnderscore value (lit "_")
  let value := ReplaceAllString reNotWhitelisted value (lit "_")
  TrimByte value 95

/-! ## `net/http` and the Prometheus client, as far as `ServeHTTP` uses them -/

/-- The fields of `http.Response` that matter here: the status line text, such
as `200 OK`, and the status code. -/
structure Response where
  Status : GoString
  StatusCode : Nat
  deriving DecidableEq, Repr

/-- The fields of `http.Request` that matter here. `Path` is `r.URL.Path` and
`URL` the text of `r.URL`. `Response` is the pointer field `r.Response`, which
`net/http` fills only for a client request created by a redirect; `none` is the
nil pointer. -/
structure Request where
  Method : GoString
  Host : GoString
  URL : GoString
  Path : GoString
  Header : List (GoString × GoString)
  Response : Option Response
  deriving DecidableEq, Repr

/-- What a `http.ResponseWriter` has received so far: status code, headers and
body, as `httptest.ResponseRecorder` keeps them. -/
structure ResponseWriter where
  Code : Nat
  Header : List (GoString × GoString)
  Body : GoString
  deriving DecidableEq, Repr

/-- The ways a call can panic. -/
inductive Panic where
  /-- A nil pointer is dereferenced. -/
  | nilPointer : Panic
  /-- The function `MustRegister` rejects the collector. -/
  | registration : Panic
  /-- The method `WithLabelValues` rejects the label values. -/
  | labelValues : Panic
  /-- The downstream handler panics. -/
  | downstream : Panic
  deriving DecidableEq, Repr

/-- A `http.Handler`: it may write to the response writer and, the request
being passed by pointer, change the request; `none` stands for a panic. -/
abbrev Handler := ResponseWriter → Request → Option (ResponseWriter × Request)

/-- A `prometheus.CounterVec`: its descriptor and, for each tuple of label
values used so far, the value of the counter. -/
structure CounterVec where
  Name : GoString
  Help : GoString
  labelNames : List GoString
  series : List (List GoString × Nat)
  deriving DecidableEq, Repr

/-- The value of the series with the given label values, 0 when the series
does not exist yet. -/
def CounterVec.value (v : CounterVec) (lvs : List GoString) : Nat :=
  match v.series.find? (fun e => e.1 = lvs) with
  | some e => e.2
  | none => 0

/-- The descriptor of a family: metric name, help text and label names. -/
def CounterVec.desc (v : CounterVec) : GoString × GoString × List GoString :=
  (v.Name, v.Help, v.labelNames)

/-- Add one to the series with the given label values, creating it when it
does not exist yet. -/
def incSeries : List (List GoString × Nat) → List GoString → List (List GoString × Nat)
  | [], lvs => [(lvs, 1)]
  | (k, n) :: rest, lvs =>
    if k = lvs then (k, n + 1) :: rest else (k, n) :: incSeries rest lvs

/-- The loop of `utf8.ValidString`; the first argument bounds the number of
runes. -/
def validStringFuel : Nat → GoString → Bool
  | _, [] => true
  | 0, _ :: _ => false
  | fuel + 1, b :: rest =>
    if DecodeRuneInString (b :: rest) = (RuneError, 1) then false
    else validStringFuel fuel ((b :: rest).drop (DecodeRuneInString (b :: rest)).2)

/-- The function `utf8.ValidString`. -/
def ValidString (s : GoString) : Bool := validStringFuel s.length s

/-- The call `v.WithLabelValues(lvs...).Inc()` on a non-nil family: it panics
when the number of values differs from the number of label names or a value is
not valid UTF-8. -/
def CounterVec.incWithLabelValues (v : CounterVec) (lvs : List GoString) :
    Except Panic CounterVec :=
  if lvs.length = v.labelNames.length ∧ lvs.all ValidString then
    .ok { v with series := incSeries v.series lvs }
  else .error .labelValues

/-- The part of the process outside the middleware instance: the default
Prometheus registry. `accepts` is the registry's check of a metric name, which
belongs to the client library; `registered` holds the names registered so far;
`calls` records every call of `promauto.NewCounterVec` with its metric name and
label names. -/
structure World where
  accepts : GoString → Bool
  registered : List GoString
  calls : List (GoString × List GoString)

/-- The function `promauto.NewCounterVec` on the default registry: it builds
the family and registers it with `MustRegister`, which panics when the name is
rejected or a collector of this name is registered already. -/
def NewCounterVec (g : World) (name help : GoString) (labelNames : List GoString) :
    Option CounterVec × World :=
  if g.accepts name ∧ name ∉ g.registered then
    (some { Name := name, Help := help, labelNames := labelNames, series := [] },
      { g with registered := name :: g.registered,
               calls := g.calls ++ [(name, labelNames)] })
  else (none, { g with calls := g.calls ++ [(name, labelNames)] })

/-! ## `demo.go`: the middleware -/

/-- The struct `Config`. -/
structure Config where
  MetricName : GoString
  deriving DecidableEq, Repr

/-- The function `CreateConfig`. -/
def CreateConfig : Config :=
  { MetricName := lit "traefik_url_requests_total" }

/-- The struct `URLMetrics`. `requestsTotal` is a pointer, nil (`none`) until
the family is built; `once` is the state of the `sync.Once`, true when `Do` has
run its function. -/
structure URLMetrics where
  next : Handler
  name : GoString
  config : Config
  requestsTotal : Option CounterVec
  once : Bool

/-- The function `New`: the instance and the error, which is always nil. -/
def New (next : Handler) (config : Config) (name : GoString) :
    URLMetrics × Option GoString :=
  ({ next := next, name := name, config := config, requestsTotal := none, once := false },
    none)

/-- What a call of `ServeHTTP` leaves behind: whether it panicked, and the
instance, the registry, the response writer and the request afterwards. -/
structure Served where
  panic : Option Panic
  m : URLMetrics
  g : World
  w : ResponseWriter
  r : Request

/-- The method `URLMetrics.ServeHTTP`. -/
def ServeHTTP (m : URLMetrics) (g : World) (w : ResponseWriter) (r : Request) : Served :=
  -- m.once.Do(...): `Once` marks itself done even when the function panics
  let init : Option Panic × URLMetrics × World :=
    if m.once then (none, m, g)
    else
      match NewCounterVec g m.config.MetricName (lit "Total number of HTTP requests by URL")
          [lit "url", lit "method", lit "status"] with
      | (some v, g1) => (none, { m with requestsTotal := some v, once := true }, g1)
      | (none, g1) => (some .registration, { m with once := true }, g1)
  match init with
  | (some p, m1, g1) => { panic := some p, m := m1, g := g1, w := w, r := r }
  | (none, m1, g1) =>
    -- m.next.ServeHTTP(w, r)
    match m1.next w r with
    | none => { panic := some .downstream, m := m1, g := g1, w := w, r := r }
    | some (w1, r1) =>
      -- the arguments of WithLabelValues are evaluated before it is called
      let url := normalizeUri (safeLabel r1.Path)
      let method := r1.Method
      match r1.Response with
      | none => { panic := some .nilPointer, m := m1, g := g1, w := w1, r := r1 }
      | some resp =>
        match m1.requestsTotal with
        | none => { panic := some .nilPointer, m := m1, g := g1, w := w1, r := r1 }
        | some v =>
          match v.incWithLabelValues [url, method, resp.Status] with
          | .error p => { panic := some p, m := m1, g := g1, w := w1, r := r1 }
          | .ok v1 =>
            { panic := none, m := { m1 with requestsTotal := some v1 }, g := g1,
              w := w1, r := r1 }

/-- Serve one request and keep the instance and the registry; a panic is
recovered by the server, as `net/http` does for each connection. -/
def serve (st : URLMetrics × World) (wr : ResponseWriter × Request) : URLMetrics × World :=
  ((ServeHTTP st.1 st.2 wr.1 wr.2).m, (ServeHTTP st.1 st.2 wr.1 wr.2).g)

/-- Serve the requests one after another. -/
def serveAll (st : URLMetrics × World) (reqs : List (ResponseWriter × Request)) :
    URLMetrics × World :=
  reqs.foldl serve st

/-- The request of `TestDemo`: `GET http://localhost`, built by
`http.NewRequestWithContext`, which leaves `Response` nil. -/
def testDemoRequest : Request :=
  { Method := lit "GET", Host := lit "localhost", URL := lit "http://localhost",
    Path := [], Header := [], Response := none }

/-- A fresh `httptest.NewRecorder()`. -/
def newRecorder : ResponseWriter := { Code := 200, Header := [], Body := [] }

/-- The downstream handler of `TestDemo`, which does nothing. -/
def testDemoNext : Handler := fun w r => some (w, r)

/-- A registry with nothing registered that accepts every name. -/
def emptyWorld : World := { accepts := fun _ => true, registered := [], calls := [] }

/-- A `GET /items/123` as a server hands it to a handler. -/
def itemsRequest : Request :=
  { Method := lit "GET", Host := lit "localhost", URL := lit "/items/123",
    Path := lit "/items/123", Header := [], Response := none }

/-- A downstream handler that answers with status 200. -/
def okNext : Handler := fun w r => some ({ w with Code := 200 }, r)

/-- A request created by a redirect, whose `Response` field holds the redirect
response `302 Found`. -/
def redirectedRequest : Request :=
  { itemsRequest with Response := some { Status := lit "302 Found", StatusCode := 302 } }

/-- The instance `TestDemo` builds: default configuration, name `demo-plugin`. -/
def demoInstance (next : Handler) : URLMetrics :=
  (New next CreateConfig (lit "demo-plugin")).1

/-! ## Shapes of paths used to state the properties -/

/-- ASCII letters. -/
def isLetter (b : Nat) : Bool := (97 ≤ b && b ≤ 122) || (65 ≤ b && b ≤ 90)

/-- The path `/seg1/seg2/.../segN` of the given segments. -/
def joinPath : List GoString → GoString
  | [] => []
  | seg :: segs => 47 :: (seg ++ joinPath segs)

/-- A segment of digits only becomes `:id`, any other segment is kept. -/
def idSegment (seg : GoString) : GoString :=
  if seg.all isDigit then lit ":id" else seg

/-- Does the string start with a digit? -/
def startsWithDigit : GoString → Bool
  | [] => false
  | d :: _ => isDigit d

/-- Does the string contain a slash immediately followed by a digit? -/
def hasSlashDigit : GoString → Bool
  | [] => false
  | b :: rest => (b == 47 && startsWithDigit rest) || hasSlashDigit rest

/-- Does the string start with an underscore? -/
def startsWithUnderscore : GoString → Bool
  | [] => false
  | b :: _ => b == 95

/-- Does the string contain two consecutive underscores? -/
def hasDoubleUnderscore : GoString → Bool
  | [] => false
  | b :: rest => (b == 95 && startsWithUnderscore rest) || hasDoubleUnderscore rest

/-- Does the string contain a slash followed by a UUID in the canonical
format? -/
def hasUUID : GoString → Bool
  | [] => false
  | b :: rest => (reUUID (b :: rest)).isSome || hasUUID rest

/-- What the specification says `normalizeUri` returns, read byte by byte: a
slash followed by digits is replaced, together with the whole run of digits, by
`/{id}`, and every other byte is kept. The flag tells whether the bytes just
before belong to a run that is being replaced. -/
def normalizeUriSpec : Bool → GoString → GoString
  | _, [] => []
  | inRun, b :: rest =>
    if inRun && isDigit b then normalizeUriSpec true rest
    else if b == 47 && startsWithDigit rest then lit "/{id}" ++ normalizeUriSpec true rest
    else b :: normalizeUriSpec false rest

/-- Unicode scalar values: the code points that UTF-8 encodes. -/
def validScalar (c : Nat) : Bool := c < 0xD800 || (0xE000 ≤ c && c < 0x110000)

/-- The bytes of a string given by its code points. -/
def encodeString (cs : List Nat) : GoString := cs.flatMap encodeRune

/-- A code point outside the whitelist becomes one underscore. -/
def sanitizeRune (c : Nat) : Nat := if isWhitelisted c then c else 95

/-- The method `Header.Get` for a key in canonical form: the first value stored
under the key, the empty string when there is none. -/
def headerGet (h : List (GoString × GoString)) (key : GoString) : GoString :=
  match h.find? (fun e => e.1 = key) with
  | some e => e.2
  | none => []

/-- The loop of the conversion `[]rune(s)`: the runes of a string as Go decodes
them, an invalid byte giving `RuneError`; the first argument bounds the number
of runes. -/
def runesFuel : Nat → GoString → List Nat
  | 0, _ => []
  | _ + 1, [] => []
  | fuel + 1, b :: rest =>
    (DecodeRuneInString (b :: rest)).1
      :: runesFuel fuel ((b :: rest).drop (DecodeRuneInString (b :: rest)).2)

/-- The conversion `[]rune(s)`. -/
def runes (s : GoString) : List Nat := runesFuel s.length s

/-- The relation between neighbouring bytes of a string without a slash
immediately followed by a digit. -/
def slashFree (x y : Nat) : Prop := ¬ (x = 47 ∧ isDigit y = true)

/-! ## Facts about the decoder -/

theorem first_lead_bounds {b sz lo hi : Nat} (h : first b = .lead sz lo hi) :
    0xC2 ≤ b ∧ b ≤ 0xF4 ∧ 0x80 ≤ lo ∧ hi ≤ 0xBF ∧
      ((sz = 2 ∧ b < 0xE0) ∨ (sz = 3 ∧ 0xE0 ≤ b ∧ b < 0xF0 ∧ (b ≠ 0xE0 ∨ lo = 0xA0))
        ∨ (sz = 4 ∧ 0xF0 ≤ b ∧ (b ≠ 0xF0 ∨ lo = 0x90))) := by
  unfold first at h
  simp only [locb, hicb] at h
  repeat' split at h
  all_goals first
    | (simp only [FirstInfo.lead.injEq] at h; omega)
    | cases h

theorem first_ascii {b : Nat} (h : b < 0x80) : first b = .ascii := by
  simp [first, h]

theorem first_ascii_lt {b : Nat} (h : first b = .ascii) : b < 0x80 := by
  unfold first at h
  repeat' split at h
  all_goals first
    | assumption
    | cases h

theorem decode_ascii {b : Nat} (rest : GoString) (h : b < 0x80) :
    DecodeRuneInString (b :: rest) = (b, 1) := by
  simp [DecodeRuneInString, first_ascii h]

/-- A rune decoded from a sequence that starts with a non-ASCII byte lies above
the ASCII range. -/
theorem decode_rune_ge {b : Nat} (rest : GoString) (hb : 0x80 ≤ b) :
    0x80 ≤ (DecodeRuneInString (b :: rest)).1 := by
  cases hf : first b with
  | ascii => exact absurd (first_ascii_lt hf) (by omega)
  | invalid => simp [DecodeRuneInString, hf, RuneError]
  | lead sz lo hi =>
    have hbd := first_lead_bounds hf
    simp only [DecodeRuneInString, hf, locb, hicb]
    repeat' split
    all_goals (simp only [RuneError]; omega)

/-- The width of the first rune of a non-empty string is between 1 and 4. -/
theorem decode_width (b : Nat) (rest : GoString) :
    1 ≤ (DecodeRuneInString (b :: rest)).2 ∧ (DecodeRuneInString (b :: rest)).2 ≤ 4 := by
  simp only [DecodeRuneInString]
  repeat' split
  all_goals simp

theorem isWhitelisted_lt {r : Nat} (h : isWhitelisted r = true) : r < 0x80 := by
  simp [isWhitelisted] at h
  omega

/-- A whitelisted first rune is a single ASCII byte. -/
theorem decode_whitelisted {b : Nat} {rest : GoString}
    (h : isWhitelisted (DecodeRuneInString (b :: rest)).1 = true) :
    b < 0x80 ∧ DecodeRuneInString (b :: rest) = (b, 1) := by
  have hb : b < 0x80 := by
    by_contra hge
    have := decode_rune_ge rest (Nat.le_of_not_lt hge)
    have := isWhitelisted_lt h
    omega
  exact ⟨hb, decode_ascii rest hb⟩

/-! ## Facts about the replacement loop -/

theorem replaceAllFuel_some {re : Regexp} {repl : GoString} {b n : Nat} {rest : GoString}
    (fuel : Nat) (h : re (b :: rest) = some n) :
    replaceAllFuel re repl (fuel + 1) (b :: rest)
      = repl ++ replaceAllFuel re repl fuel ((b :: rest).drop n) := by
  simp only [replaceAllFuel, h]

theorem replaceAllFuel_none {re : Regexp} {repl : GoString} {b : Nat} {rest : GoString}
    (fuel : Nat) (h : re (b :: rest) = none) (hb : b < 0x80) :
    replaceAllFuel re repl (fuel + 1) (b :: rest)
      = b :: replaceAllFuel re repl fuel rest := by
  simp only [replaceAllFuel, h, decode_ascii rest hb, List.take_succ_cons, List.take_zero,
    List.drop_succ_cons, List.drop_zero, List.singleton_append]

/-- A subject of ASCII bytes in which the pattern matches at no position is
returned unchanged. -/
theorem replaceAllFuel_id (re : Regexp) (repl : GoString) :
    ∀ (s : GoString), (∀ b ∈ s, b < 0x80) →
      (∀ t, t <:+ s → re t = none) → ∀ fuel, replaceAllFuel re repl fuel s = s := by
  intro s
  induction s with
  | nil => intro _ _ fuel; cases fuel <;> rfl
  | cons b rest ih =>
    intro hascii hno fuel
    cases fuel with
    | zero => rfl
    | succ fuel =>
      rw [replaceAllFuel_none fuel (hno _ (List.suffix_refl _)) (hascii b (List.mem_cons_self _ _))]
      rw [ih (fun c hc => hascii c (List.mem_cons_of_mem _ hc))
        (fun t ht => hno t (List.suffix_cons_iff.mpr (Or.inr ht)))]

/-- A run of ASCII bytes at none of which the pattern can start a match is
copied, and the loop goes on behind it. -/
theorem replaceAllFuel_copy (re : Regexp) (repl : GoString) :
    ∀ (l rest : GoString) (fuel : Nat), (∀ b ∈ l, b < 0x80 ∧ ∀ t, re (b :: t) = none) →
      replaceAllFuel re repl (l.length + fuel) (l ++ rest)
        = l ++ replaceAllFuel re repl fuel rest := by
  intro l
  induction l with
  | nil => intro rest fuel _; simp
  | cons b l ih =>
    intro rest fuel h
    have hb := h b (List.mem_cons_self _ _)
    have e : (b :: l).length + fuel = (l.length + fuel) + 1 := by simp; omega
    rw [e, List.cons_append, replaceAllFuel_none _ (hb.2 _) hb.1,
      ih rest fuel (fun c hc => h c (List.mem_cons_of_mem _ hc)), List.cons_append]

/-! ## The whitelist step and the trimming step -/

theorem lit_underscore : lit "_" = [95] := by decide

/-- Every byte the whitelist step returns is whitelisted. -/
theorem replaceAllFuel_notWhitelisted :
    ∀ (fuel : Nat) (s : GoString), s.length < fuel →
      ∀ b ∈ replaceAllFuel reNotWhitelisted [95] fuel s, isWhitelisted b = true := by
  intro fuel
  induction fuel with
  | zero => intro s h; omega
  | succ fuel ih =>
    intro s h
    cases s with
    | nil => intro b hb; simp [replaceAllFuel] at hb
    | cons c rest =>
      by_cases hw : isWhitelisted (DecodeRuneInString (c :: rest)).1 = true
      · have hd := decode_whitelisted hw
        have hre : reNotWhitelisted (c :: rest) = none := by simp [reNotWhitelisted, hw]
        rw [replaceAllFuel_none fuel hre hd.1]
        intro b hb
        rcases List.mem_cons.mp hb with rfl | hb
        · rw [hd.2] at hw; exact hw
        · exact ih rest (by simp at h; omega) b hb
      · have hre : reNotWhitelisted (c :: rest)
            = some (DecodeRuneInString (c :: rest)).2 := by simp [reNotWhitelisted, hw]
        rw [replaceAllFuel_some fuel hre]
        intro b hb
        rcases List.mem_append.mp hb with hb | hb
        · have : b = 95 := by simpa using hb
          subst this; decide
        · refine ih _ ?_ b hb
          have hwd := decode_width c rest
          simp only [List.length_drop, List.length_cons] at h ⊢
          omega

theorem trimByte_subset (s : GoString) (c : Nat) : TrimByte s c ⊆ s :=
  fun _ hb => (List.rdropWhile_prefix (fun b => b == c) s).subset
    ((List.dropWhile_suffix (fun b => b == c)).subset hb)

theorem trimByte_head (s : GoString) (c : Nat) : (TrimByte s c).head? ≠ some c := by
  intro h
  have := List.head?_dropWhile_not (fun b => b == c) (trimRightByte s c)
  unfold TrimByte trimLeftByte at h
  rw [h] at this
  simp at this

theorem trimByte_getLast (s : GoString) (c : Nat) : (TrimByte s c).getLast? ≠ some c := by
  intro h
  have hne : TrimByte s c ≠ [] := by
    intro e; rw [e] at h; simp at h
  have hsuf : TrimByte s c <:+ trimRightByte s c := List.dropWhile_suffix _
  have hne2 : trimRightByte s c ≠ [] := by
    intro e; rw [e] at hsuf; exact hne (List.suffix_nil.mp hsuf)
  have h1 := hsuf.getLast hne
  have h2 := List.rdropWhile_last_not (fun b => b == c) s hne2
  rw [List.getLast?_eq_getLast _ hne] at h
  have h3 : (TrimByte s c).getLast hne = c := by simpa using h
  have h4 : (trimRightByte s c).getLast hne2 = c := h1.symm.trans h3
  unfold trimRightByte at h4
  rw [h4] at h2
  simp at h2

/-! ## Subjects in which the later steps find nothing to do -/

theorem expectByte_some {c : Nat} {s r : GoString} (h : expectByte c s = some r) :
    s = c :: r := by
  cases s with
  | nil => simp [expectByte] at h
  | cons b rest =>
    simp only [expectByte] at h
    split at h
    · simp only [Option.some.injEq] at h; subst h; subst b; rfl
    · cases h

theorem expectHex_suffix : ∀ (n : Nat) {s r : GoString}, expectHex n s = some r → r <:+ s := by
  intro n
  induction n with
  | zero => intro s r h; simp only [expectHex, Option.some.injEq] at h; subst h; exact List.suffix_refl _
  | succ n ih =>
    intro s r h
    cases s with
    | nil => simp [expectHex] at h
    | cons b rest =>
      simp only [expectHex] at h
      split at h
      · exact List.suffix_cons_iff.mpr (Or.inr (ih h))
      · cases h

/-- A match of the UUID pattern contains a hyphen. -/
theorem reUUID_none {t : GoString} (h : 45 ∉ t) : reUUID t = none := by
  cases h1 : expectByte 47 t with
  | none => simp [reUUID, h1]
  | some t1 =>
    cases h2 : expectHex 8 t1 with
    | none => simp [reUUID, h1, h2]
    | some t2 =>
      cases h3 : expectByte 45 t2 with
      | none => simp [reUUID, h1, h2, h3]
      | some t3 =>
        exfalso
        apply h
        have e1 := expectByte_some h1
        have e3 := expectByte_some h3
        have hs := expectHex_suffix 8 h2
        rw [e1]
        refine List.mem_cons_of_mem _ (hs.subset ?_)
        rw [e3]
        exact List.mem_cons_self _ _

/-- A match of the underscore pattern starts with an underscore. -/
theorem reDoubleUnderscore_none {b : Nat} (t : GoString) (h : b ≠ 95) :
    reDoubleUnderscore (b :: t) = none := by
  have : List.takeWhile (fun b => b == 95) (b :: t) = [] := by
    rw [List.takeWhile_cons_of_neg]; simpa using h
  simp [reDoubleUnderscore, this]

theorem reDoubleUnderscore_nil : reDoubleUnderscore [] = none := by
  simp [reDoubleUnderscore]

theorem reNotWhitelisted_none {b : Nat} (t : GoString) (h : isWhitelisted b = true) :
    reNotWhitelisted (b :: t) = none := by
  simp [reNotWhitelisted, decode_ascii t (isWhitelisted_lt h), h]

theorem trimByte_id {s : GoString} {c : Nat} (h : c ∉ s) : TrimByte s c = s := by
  have h1 : trimRightByte s c = s := by
    unfold trimRightByte
    rw [List.rdropWhile_eq_self_iff]
    intro hl hp
    apply h
    have : s.getLast hl = c := by simpa using hp
    rw [← this]
    exact List.getLast_mem hl
  unfold TrimByte
  rw [h1]
  unfold trimLeftByte
  rw [List.dropWhile_eq_self_iff]
  intro hl hp
  apply h
  have : s.get ⟨0, hl⟩ = c := by simpa using hp
  rw [← this]
  exact List.get_mem _ _ _

/-- On a subject of whitelisted bytes without an underscore, the UUID step, the
underscore step, the whitelist step and the trimming change nothing. -/
theorem laterSteps_id {s : GoString} (h : ∀ b ∈ s, isWhitelisted b = true ∧ b ≠ 95) :
    TrimByte (ReplaceAllString reNotWhitelisted
      (ReplaceAllString reDoubleUnderscore
        (ReplaceAllString reUUID s (lit "/:uuid")) (lit "_")) (lit "_")) 95 = s := by
  have hascii : ∀ b ∈ s, b < 0x80 := fun b hb => isWhitelisted_lt (h b hb).1
  have h45 : 45 ∉ s := fun hm => absurd (h 45 hm).1 (by decide)
  have h95 : 95 ∉ s := fun hm => (h 95 hm).2 rfl
  have e1 : ReplaceAllString reUUID s (lit "/:uuid") = s :=
    replaceAllFuel_id _ _ s hascii (fun t ht => reUUID_none (fun hm => h45 (ht.subset hm))) _
  have e2 : ReplaceAllString reDoubleUnderscore s (lit "_") = s := by
    refine replaceAllFuel_id _ _ s hascii (fun t ht => ?_) _
    cases t with
    | nil => exact reDoubleUnderscore_nil
    | cons b t =>
      exact reDoubleUnderscore_none t (fun e => h95 (ht.subset (e ▸ List.mem_cons_self _ _)))
  have e3 : ReplaceAllString reNotWhitelisted s (lit "_") = s := by
    refine replaceAllFuel_id _ _ s hascii (fun t ht => ?_) _
    cases t with
    | nil => rfl
    | cons b t => exact reNotWhitelisted_none t (h b (ht.subset (List.mem_cons_self _ _))).1
  rw [e1, e2, e3, trimByte_id h95]

/-! ## The digit step on paths of letter segments and digit segments -/

theorem reDigits_none_of_ne {b : Nat} (t : GoString) (h : b ≠ 47) :
    reDigits (b :: t) = none := by
  simp [reDigits, h]

theorem reDigits_none_of_not_digit {c : Nat} (t : GoString) (h : isDigit c = false) :
    reDigits (47 :: c :: t) = none := by
  have : List.takeWhile isDigit (c :: t) = [] := by
    rw [List.takeWhile_cons_of_neg]; simp [h]
  simp [reDigits, this]

theorem isLetter_facts {b : Nat} (h : isLetter b = true) :
    b < 0x80 ∧ b ≠ 47 ∧ b ≠ 95 ∧ isDigit b = false ∧ isWhitelisted b = true := by
  simp only [isLetter, Bool.or_eq_true, Bool.and_eq_true, decide_eq_true_eq] at h
  refine ⟨by omega, by omega, by omega, ?_, ?_⟩
  · simp only [isDigit, Bool.and_eq_false_iff, decide_eq_false_iff_not]; omega
  · simp only [isWhitelisted, Bool.or_eq_true, Bool.and_eq_true, decide_eq_true_eq]; omega

theorem isDigit_facts {b : Nat} (h : isDigit b = true) :
    b < 0x80 ∧ b ≠ 47 ∧ b ≠ 95 ∧ isWhitelisted b = true := by
  simp only [isDigit, Bool.and_eq_true, decide_eq_true_eq] at h
  refine ⟨by omega, by omega, by omega, ?_⟩
  simp only [isWhitelisted, Bool.or_eq_true, Bool.and_eq_true, decide_eq_true_eq]; omega

theorem takeWhile_isDigit_joinPath (segs : List GoString) :
    List.takeWhile isDigit (joinPath segs) = [] := by
  cases segs with
  | nil => rfl
  | cons seg segs => rfl

theorem idSegment_of_letters {seg : GoString} (hne : seg ≠ [])
    (h : seg.all isLetter = true) : idSegment seg = seg := by
  cases seg with
  | nil => exact absurd rfl hne
  | cons c seg =>
    have hc : isLetter c = true := by
      simp only [List.all_cons, Bool.and_eq_true] at h; exact h.1
    simp [idSegment, (isLetter_facts hc).2.2.2.1]

theorem idSegment_of_digits {seg : GoString} (h : seg.all isDigit = true) :
    idSegment seg = lit ":id" := by
  simp [idSegment, h]

theorem replaceAllFuel_digits_joinPath :
    ∀ (segs : List GoString),
      (∀ seg ∈ segs, seg ≠ [] ∧ (seg.all isLetter = true ∨ seg.all isDigit = true)) →
      ∀ fuel, (joinPath segs).length < fuel →
        replaceAllFuel reDigits (lit "/:id") fuel (joinPath segs)
          = joinPath (segs.map idSegment) := by
  intro segs
  induction segs with
  | nil => intro _ fuel _; cases fuel <;> rfl
  | cons seg segs ih =>
    intro h fuel hfuel
    obtain ⟨hne, hseg⟩ := h seg (List.mem_cons_self _ _)
    have ih := ih (fun x hx => h x (List.mem_cons_of_mem _ hx))
    cases fuel with
    | zero => omega
    | succ fuel =>
      simp only [joinPath, List.length_cons, List.length_append] at hfuel
      simp only [joinPath, List.map_cons]
      rcases hseg with hl | hd
      · -- a segment of letters is copied
        rw [idSegment_of_letters hne hl]
        cases seg with
        | nil => exact absurd rfl hne
        | cons c seg =>
          have hall : ∀ b ∈ c :: seg, isLetter b = true := by simpa using hl
          have hc := isLetter_facts (hall c (List.mem_cons_self _ _))
          rw [List.cons_append, replaceAllFuel_none fuel
            (reDigits_none_of_not_digit _ hc.2.2.2.1) (by decide)]
          have e : fuel = (c :: seg).length + (fuel - (c :: seg).length) := by
            simp only [List.length_cons] at hfuel ⊢; omega
          rw [← List.cons_append, e, replaceAllFuel_copy reDigits _ (c :: seg) _ _
            (fun b hb => ⟨(isLetter_facts (hall b hb)).1,
              fun t => reDigits_none_of_ne t (isLetter_facts (hall b hb)).2.1⟩)]
          rw [ih _ (by simp only [List.length_cons] at hfuel ⊢; omega)]
      · -- a segment of digits is one match
        rw [idSegment_of_digits hd]
        have hall : ∀ b ∈ seg, isDigit b = true := by simpa using hd
        have htw : List.takeWhile isDigit (seg ++ joinPath segs) = seg := by
          rw [List.takeWhile_append_of_pos hall, takeWhile_isDigit_joinPath, List.append_nil]
        have hpos : 0 < seg.length := List.length_pos.mpr hne
        have hre : reDigits (47 :: (seg ++ joinPath segs)) = some (1 + seg.length) := by
          simp [reDigits, htw, hpos]
        rw [replaceAllFuel_some fuel hre]
        have hdrop : List.drop (1 + seg.length) (47 :: (seg ++ joinPath segs))
            = joinPath segs := by
          rw [Nat.add_comm, List.drop_succ_cons, List.drop_left]
        rw [hdrop, ih _ (by omega)]
        rfl

theorem mem_joinPath {b : Nat} :
    ∀ {segs : List GoString}, b ∈ joinPath segs → b = 47 ∨ ∃ seg ∈ segs, b ∈ seg := by
  intro segs
  induction segs with
  | nil => intro h; simp [joinPath] at h
  | cons seg segs ih =>
    intro h
    simp only [joinPath, List.mem_cons, List.mem_append] at h
    rcases h with h | h | h
    · exact Or.inl h
    · exact Or.inr ⟨seg, List.mem_cons_self _ _, h⟩
    · rcases ih h with h | ⟨x, hx, hb⟩
      · exact Or.inl h
      · exact Or.inr ⟨x, List.mem_cons_of_mem _ hx, hb⟩

theorem lit_id_bytes : lit ":id" = [58, 105, 100] := by decide

/-- After the digit step such a path holds letters, slashes and colons only. -/
theorem joinPath_idSegment_bytes {segs : List GoString}
    (h : ∀ seg ∈ segs, seg ≠ [] ∧ (seg.all isLetter = true ∨ seg.all isDigit = true)) :
    ∀ b ∈ joinPath (segs.map idSegment), isWhitelisted b = true ∧ b ≠ 95 := by
  intro b hb
  rcases mem_joinPath hb with rfl | ⟨x, hx, hbx⟩
  · exact ⟨by decide, by decide⟩
  · obtain ⟨seg, hseg, rfl⟩ := List.mem_map.mp hx
    obtain ⟨hne, hl | hd⟩ := h seg hseg
    · rw [idSegment_of_letters hne hl] at hbx
      have := isLetter_facts ((List.all_eq_true.mp hl) b hbx)
      exact ⟨this.2.2.2.2, this.2.2.1⟩
    · rw [idSegment_of_digits hd, lit_id_bytes] at hbx
      simp only [List.mem_cons, List.mem_singleton, List.not_mem_nil, or_false] at hbx
      rcases hbx with rfl | rfl | rfl <;> exact ⟨by decide, by decide⟩

/-- On a segment that starts with a letter and holds letters and digits, behind
a slash, the digit step finds no match. -/
theorem replaceAll_digits_letterFirst {c : Nat} {rest : GoString} (hc : isLetter c = true)
    (hrest : rest.all (fun b => isLetter b || isDigit b) = true) :
    ReplaceAllString reDigits (47 :: c :: rest) (lit "/:id") = 47 :: c :: rest := by
  have hall : ∀ b ∈ c :: rest, b < 0x80 ∧ b ≠ 47 := by
    intro b hb
    rcases List.mem_cons.mp hb with rfl | hb
    · exact ⟨(isLetter_facts hc).1, (isLetter_facts hc).2.1⟩
    · have := (List.all_eq_true.mp hrest) b hb
      rcases Bool.or_eq_true_iff.mp this with h | h
      · exact ⟨(isLetter_facts h).1, (isLetter_facts h).2.1⟩
      · exact ⟨(isDigit_facts h).1, (isDigit_facts h).2.1⟩
  refine replaceAllFuel_id _ _ _ ?_ ?_ _
  · intro b hb
    rcases List.mem_cons.mp hb with rfl | hb
    · decide
    · exact (hall b hb).1
  · intro t ht
    rcases List.suffix_cons_iff.mp ht with rfl | ht
    · exact reDigits_none_of_not_digit _ (isLetter_facts hc).2.2.2.1
    · cases t with
      | nil => rfl
      | cons b t => exact reDigits_none_of_ne t (hall b (ht.subset (List.mem_cons_self _ _))).2

/-! ## The one-time registration -/

theorem incWithLabelValues_desc {v v1 : CounterVec} {lvs : List GoString}
    (h : v.incWithLabelValues lvs = .ok v1) : v1.desc = v.desc := by
  unfold CounterVec.incWithLabelValues at h
  split at h
  · cases h; rfl
  · cases h

/-- Once the `sync.Once` is done, a request leaves the registry alone and keeps
the family the instance holds. -/
theorem ServeHTTP_done (m : URLMetrics) (g : World) (w : ResponseWriter) (r : Request)
    (h : m.once = true) :
    (ServeHTTP m g w r).g = g ∧ (ServeHTTP m g w r).m.once = true
      ∧ (ServeHTTP m g w r).m.requestsTotal.map CounterVec.desc
          = m.requestsTotal.map CounterVec.desc := by
  unfold ServeHTTP
  simp only [h, if_true]
  split
  · exact ⟨rfl, h, rfl⟩
  · split
    · exact ⟨rfl, h, rfl⟩
    · split
      · exact ⟨rfl, h, rfl⟩
      · rename_i v hv
        split
        · exact ⟨rfl, h, rfl⟩
        · rename_i v1 hi
          refine ⟨rfl, rfl, ?_⟩
          simp only [hv, Option.map_some', incWithLabelValues_desc hi]

/-- After the first request, further requests leave the registry alone and
keep the family the instance holds. -/
theorem serveAll_done (reqs : List (ResponseWriter × Request)) :
    ∀ (st : URLMetrics × World), st.1.once = true →
      (serveAll st reqs).2 = st.2 ∧ (serveAll st reqs).1.once = true
        ∧ (serveAll st reqs).1.requestsTotal.map CounterVec.desc
            = st.1.requestsTotal.map CounterVec.desc := by
  induction reqs with
  | nil => intro st h; exact ⟨rfl, h, rfl⟩
  | cons wr reqs ih =>
    intro st h
    have hd := ServeHTTP_done st.1 st.2 wr.1 wr.2 h
    have hi := ih (serve st wr) hd.2.1
    simp only [serveAll, List.foldl_cons] at hi ⊢
    exact ⟨hi.1.trans hd.1, hi.2.1, hi.2.2.trans hd.2.2⟩

/-- The first request on a fresh instance calls `promauto.NewCounterVec` once,
with the configured name and the three label names. -/
theorem ServeHTTP_fresh (m : URLMetrics) (g : World) (w : ResponseWriter) (r : Request)
    (h : m.once = false) :
    (ServeHTTP m g w r).m.once = true
      ∧ (ServeHTTP m g w r).g.calls
          = g.calls ++ [(m.config.MetricName, [lit "url", lit "method", lit "status"])]
      ∧ (g.accepts m.config.MetricName = true → m.config.MetricName ∉ g.registered →
          (ServeHTTP m g w r).m.requestsTotal.map CounterVec.desc
              = some (m.config.MetricName, lit "Total number of HTTP requests by URL",
                  [lit "url", lit "method", lit "status"])
            ∧ (ServeHTTP m g w r).g.registered = m.config.MetricName :: g.registered) := by
  unfold ServeHTTP NewCounterVec
  simp only [h]
  by_cases hok : g.accepts m.config.MetricName = true ∧ m.config.MetricName ∉ g.registered
  · simp only [hok, not_false_eq_true, and_self, if_true, Bool.false_eq_true, if_false]
    repeat' split
    all_goals simp_all [CounterVec.desc]
    rename_i v1 hi
    have hd := incWithLabelValues_desc hi
    simp only [CounterVec.desc, Prod.mk.injEq] at hd
    exact hd
  · simp only [hok, if_false, Bool.false_eq_true]
    exact ⟨trivial, trivial, fun h1 h2 => absurd ⟨h1, h2⟩ hok⟩

/-! ## The sanitiser: properties -/

/-- C1: `safeLabel` is not idempotent on `/a!!b`. The first application returns
`/a__b`, because the whitelist step runs after the underscore step and writes
two underscores, and the second application collapses them to `/a_b`. -/
theorem safeLabel_twice_differs :
    safeLabel (lit "/a!!b") = lit "/a__b"
      ∧ safeLabel (safeLabel (lit "/a!!b")) = lit "/a_b"
      ∧ safeLabel (safeLabel (lit "/a!!b")) ≠ safeLabel (lit "/a!!b") := by
  decide

/-- C2: for every input string, whatever its bytes, every byte of
`safeLabel s` belongs to the whitelist `[a-zA-Z0-9_:/]`. -/
theorem safeLabel_whitelisted (s : GoString) :
    (safeLabel s).all isWhitelisted = true := by
  rw [List.all_eq_true]
  intro b hb
  simp only [safeLabel] at hb
  have hb := trimByte_subset _ _ hb
  simp only [ReplaceAllString, lit_underscore] at hb
  exact replaceAllFuel_notWhitelisted _ _ (Nat.lt_succ_self _) b hb

/-- C3: on the UUID path of the specification, whose UUID starts with digits,
`safeLabel` does not return `/objects/:uuid`. The digit step runs first and
rewrites `/550` to `/:id`, the UUID pattern then matches nothing, and the
whitelist step turns the hyphens into underscores. The same UUID with a
leading `a` is replaced by `:uuid`. -/
theorem safeLabel_uuid_leading_digits :
    safeLabel (lit "/objects/550e8400-e29b-41d4-a716-446655440000")
        = lit "/objects/:ide8400_e29b_41d4_a716_446655440000"
      ∧ safeLabel (lit "/objects/550e8400-e29b-41d4-a716-446655440000")
        ≠ lit "/objects/:uuid"
      ∧ safeLabel (lit "/objects/a50e8400-e29b-41d4-a716-446655440000")
        = lit "/objects/:uuid" := by
  decide

/-- C4: on a path `/seg1/.../segN` whose segments are each one or more letters
or one or more digits, `safeLabel` returns the path with every digit segment
replaced by `:id` and every letter segment kept; in particular `/users/42`
becomes `/users/:id` and `/users/42/orders/7` becomes `/users/:id/orders/:id`. -/
theorem safeLabel_digit_segments :
    (∀ segs : List GoString,
        (∀ seg ∈ segs, seg ≠ [] ∧ (seg.all isLetter = true ∨ seg.all isDigit = true)) →
        safeLabel (joinPath segs) = joinPath (segs.map idSegment))
      ∧ safeLabel (lit "/users/42") = lit "/users/:id"
      ∧ safeLabel (lit "/users/42/orders/7") = lit "/users/:id/orders/:id" := by
  refine ⟨?_, by decide, by decide⟩
  intro segs h
  have e1 : ReplaceAllString reDigits (joinPath segs) (lit "/:id")
      = joinPath (segs.map idSegment) :=
    replaceAllFuel_digits_joinPath segs h _ (Nat.lt_succ_self _)
  simp only [safeLabel, e1]
  exact laterSteps_id (joinPath_idSegment_bytes h)

/-- The path `/users/42/orders/7`, an instance of C4. -/
theorem safeLabel_digit_segments_witness :
    joinPath [lit "users", lit "42", lit "orders", lit "7"] = lit "/users/42/orders/7"
      ∧ safeLabel (joinPath [lit "users", lit "42", lit "orders", lit "7"])
          = joinPath ([lit "users", lit "42", lit "orders", lit "7"].map idSegment) :=
  ⟨by decide,
    safeLabel_digit_segments.1 [lit "users", lit "42", lit "orders", lit "7"] (by decide)⟩

/-- C5, as stated, fails: the segment `42item` holds letters and digits and has
a letter, yet `safeLabel` rewrites `/42item` to `/:iditem`. -/
theorem safeLabel_digit_first_segment_rewritten :
    ¬ (∀ seg : GoString, seg.all (fun b => isLetter b || isDigit b) = true →
        seg.any isLetter = true → safeLabel (47 :: seg) = 47 :: seg) :=
  fun h => absurd (h (lit "42item") (by decide) (by decide)) (by decide)

/-- C5, amended: for every segment of ASCII letters and digits whose first
character is a letter (such as `item42`), `safeLabel` returns the slash and the
segment unchanged. -/
theorem safeLabel_letter_first_segment (c : Nat) (rest : GoString)
    (hc : isLetter c = true)
    (hrest : rest.all (fun b => isLetter b || isDigit b) = true) :
    safeLabel (47 :: c :: rest) = 47 :: c :: rest := by
  simp only [safeLabel, replaceAll_digits_letterFirst hc hrest]
  refine laterSteps_id ?_
  intro b hb
  rcases List.mem_cons.mp hb with rfl | hb
  · exact ⟨by decide, by decide⟩
  rcases List.mem_cons.mp hb with rfl | hb
  · exact ⟨(isLetter_facts hc).2.2.2.2, (isLetter_facts hc).2.2.1⟩
  · rcases Bool.or_eq_true_iff.mp ((List.all_eq_true.mp hrest) b hb) with h | h
    · exact ⟨(isLetter_facts h).2.2.2.2, (isLetter_facts h).2.2.1⟩
    · exact ⟨(isDigit_facts h).2.2.2, (isDigit_facts h).2.2.1⟩

/-- The segment `item42`, an instance of the amended C5. -/
theorem safeLabel_letter_first_segment_witness :
    47 :: 105 :: lit "tem42" = lit "/item42"
      ∧ safeLabel (47 :: 105 :: lit "tem42") = 47 :: 105 :: lit "tem42" :=
  ⟨by decide, safeLabel_letter_first_segment 105 (lit "tem42") (by decide) (by decide)⟩

/-- C6: `safeLabel` returns `/a__b`, with two consecutive underscores, on
`/a!!b`: the underscore step runs before the whitelist step, which writes one
underscore for each `!`. On `/a__b___c` it returns `/a_b_c`. -/
theorem safeLabel_keeps_underscore_run :
    safeLabel (lit "/a!!b") = lit "/a" ++ [95, 95] ++ lit "b"
      ∧ safeLabel (lit "/a__b___c") = lit "/a_b_c" := by
  decide

/-- C7: for every input string, `safeLabel s` neither begins nor ends with an
underscore. -/
theorem safeLabel_trimmed (s : GoString) :
    (safeLabel s).head? ≠ some 95 ∧ (safeLabel s).getLast? ≠ some 95 := by
  simp only [safeLabel]
  exact ⟨trimByte_head _ _, trimByte_getLast _ _⟩

/-! ## The interceptor: properties -/

/-- C8: a server request `GET /items/123` answered with 200 increments no
series: `r.Response` is nil for a server request, so reading
`r.Response.Status` panics after the downstream handler has written the status,
and the family stays empty. Where `r.Response` is set (a request created by a
redirect), the status label is the status line of that redirect response, not
the code the downstream handler wrote. -/
theorem ServeHTTP_items_request :
    (ServeHTTP (demoInstance okNext) emptyWorld newRecorder itemsRequest).w.Code = 200
      ∧ (ServeHTTP (demoInstance okNext) emptyWorld newRecorder itemsRequest).panic
          = some Panic.nilPointer
      ∧ (ServeHTTP (demoInstance okNext) emptyWorld newRecorder
            itemsRequest).m.requestsTotal.map (fun v => v.series) = some []
      ∧ (ServeHTTP (demoInstance okNext) emptyWorld newRecorder
            redirectedRequest).m.requestsTotal.map (fun v => v.series)
          = some [([lit "/items/:id", lit "GET", lit "302 Found"], 1)] := by
  decide

/-- C9: on the request of `TestDemo`, whose `Response` field is unset,
`ServeHTTP` panics with a nil pointer dereference, although the registration
succeeded and the downstream handler returned normally. -/
theorem ServeHTTP_testDemo_panics :
    testDemoNext newRecorder testDemoRequest = some (newRecorder, testDemoRequest)
      ∧ (ServeHTTP (demoInstance testDemoNext) emptyWorld newRecorder
            testDemoRequest).m.requestsTotal.isSome = true
      ∧ (ServeHTTP (demoInstance testDemoNext) emptyWorld newRecorder
            testDemoRequest).panic = some Panic.nilPointer := by
  decide

/-- C10: for requests served one after another by one instance built by `New`,
`promauto.NewCounterVec` is called exactly once, during the first request, with
the configured metric name and the label names `url`, `method`, `status` in
this order; the later requests make no call, leave the registry as it is and
keep the family of the first request. When the registry accepts the name, the
first request registers it and the instance holds the family with this name,
the help text and these label names. -/
theorem registration_once (next : Handler) (config : Config) (name : GoString) (g : World)
    (req : ResponseWriter × Request) (reqs : List (ResponseWriter × Request)) :
    (serve ((New next config name).1, g) req).2.calls
        = g.calls ++ [(config.MetricName, [lit "url", lit "method", lit "status"])]
      ∧ (serveAll (serve ((New next config name).1, g) req) reqs).2
          = (serve ((New next config name).1, g) req).2
      ∧ (serveAll (serve ((New next config name).1, g) req) reqs).1.requestsTotal.map
            CounterVec.desc
          = (serve ((New next config name).1, g) req).1.requestsTotal.map CounterVec.desc
      ∧ (g.accepts config.MetricName = true → config.MetricName ∉ g.registered →
          (serve ((New next config name).1, g) req).1.requestsTotal.map CounterVec.desc
              = some (config.MetricName, lit "Total number of HTTP requests by URL",
                  [lit "url", lit "method", lit "status"])
            ∧ (serve ((New next config name).1, g) req).2.registered
              = config.MetricName :: g.registered) := by
  have hf := ServeHTTP_fresh (New next config name).1 g req.1 req.2 rfl
  have hd := serveAll_done reqs (serve ((New next config name).1, g) req) hf.1
  exact ⟨hf.2.1, hd.1, hd.2.2, hf.2.2⟩

/-- The request of `TestDemo` followed by `GET /items/123` on an empty registry,
an instance of C10. -/
theorem registration_once_witness :
    emptyWorld.accepts CreateConfig.MetricName = true
      ∧ CreateConfig.MetricName ∉ emptyWorld.registered
      ∧ (serve ((New testDemoNext CreateConfig (lit "demo-plugin")).1, emptyWorld)
            (newRecorder, testDemoRequest)).1.requestsTotal.map CounterVec.desc
          = some (CreateConfig.MetricName, lit "Total number of HTTP requests by URL",
              [lit "url", lit "method", lit "status"])
      ∧ (serveAll (serve ((New testDemoNext CreateConfig (lit "demo-plugin")).1, emptyWorld)
            (newRecorder, testDemoRequest)) [(newRecorder, itemsRequest)]).2.calls
          = [(CreateConfig.MetricName, [lit "url", lit "method", lit "status"])] :=
  have h := registration_once testDemoNext CreateConfig (lit "demo-plugin") emptyWorld
    (newRecorder, testDemoRequest) [(newRecorder, itemsRequest)]
  ⟨rfl, by decide, (h.2.2.2 rfl (by decide)).1, by rw [h.2.1, h.1]; rfl⟩

/-! ## Construction and configuration -/

/-- C16: `New` returns an instance and no error for every configuration (an
empty metric name included), handler and name; the instance holds exactly the
given handler, name and configuration, its family pointer is nil and its
`sync.Once` has not run, so nothing has been registered. -/
theorem New_succeeds (next : Handler) (config : Config) (name : GoString) :
    (New next config name).2 = none
      ∧ (New next config name).1.next = next
      ∧ (New next config name).1.name = name
      ∧ (New next config name).1.config = config
      ∧ (New next config name).1.requestsTotal = none
      ∧ (New next config name).1.once = false
      ∧ (New next { MetricName := [] } name).2 = none :=
  ⟨rfl, rfl, rfl, rfl, rfl, rfl, rfl⟩

/-- C17: `CreateConfig` returns the configuration whose metric name is
`traefik_url_requests_total`. -/
theorem CreateConfig_metricName :
    CreateConfig.MetricName = lit "traefik_url_requests_total" :=
  rfl

/-- C18: after `ServeHTTP` on the request of `TestDemo` the request carries none
of the headers the test asserts: the call panics on the nil `r.Response`, and
the request, which no statement of `ServeHTTP` writes to, still has no header,
so `X-Host`, `X-URL`, `X-Method` and `X-Demo` all read as the empty string. -/
theorem ServeHTTP_testDemo_headers :
    (ServeHTTP (demoInstance testDemoNext) emptyWorld newRecorder testDemoRequest).r.Header
        = []
      ∧ headerGet (ServeHTTP (demoInstance testDemoNext) emptyWorld newRecorder
          testDemoRequest).r.Header (lit "X-Host") ≠ lit "localhost"
      ∧ headerGet (ServeHTTP (demoInstance testDemoNext) emptyWorld newRecorder
          testDemoRequest).r.Header (lit "X-URL") ≠ lit "http://localhost"
      ∧ headerGet (ServeHTTP (demoInstance testDemoNext) emptyWorld newRecorder
          testDemoRequest).r.Header (lit "X-Method") ≠ lit "GET"
      ∧ headerGet (ServeHTTP (demoInstance testDemoNext) emptyWorld newRecorder
          testDemoRequest).r.Header (lit "X-Demo") ≠ lit "test" := by
  decide

/-! ## The interceptor as an observer, and a registration that fails -/

/-- With a nil family pointer and the `sync.Once` done, a request panics and
the pointer stays nil. -/
theorem ServeHTTP_done_nil (m : URLMetrics) (g : World) (w : ResponseWriter) (r : Request)
    (h : m.once = true) (hv : m.requestsTotal = none) :
    (ServeHTTP m g w r).m.requestsTotal = none ∧ (ServeHTTP m g w r).panic ≠ none := by
  unfold ServeHTTP
  simp only [h, if_true, hv]
  repeat' split
  all_goals simp_all

theorem serveAll_done_nil (reqs : List (ResponseWriter × Request)) :
    ∀ (st : URLMetrics × World), st.1.once = true → st.1.requestsTotal = none →
      (serveAll st reqs).1.once = true ∧ (serveAll st reqs).1.requestsTotal = none := by
  induction reqs with
  | nil => intro st h hv; exact ⟨h, hv⟩
  | cons wr reqs ih =>
    intro st h hv
    have hd := ServeHTTP_done st.1 st.2 wr.1 wr.2 h
    have hn := ServeHTTP_done_nil st.1 st.2 wr.1 wr.2 h hv
    exact ih (serve st wr) hd.2.1 hn.1

/-- A first request whose registration is rejected panics in `MustRegister`,
before the downstream handler is called, and leaves the family pointer nil. -/
theorem ServeHTTP_fresh_rejected (m : URLMetrics) (g : World) (w : ResponseWriter)
    (r : Request) (h : m.once = false) (hv : m.requestsTotal = none)
    (hrej : ¬ (g.accepts m.config.MetricName = true ∧ m.config.MetricName ∉ g.registered)) :
    (ServeHTTP m g w r).panic = some Panic.registration
      ∧ (ServeHTTP m g w r).m.requestsTotal = none
      ∧ (ServeHTTP m g w r).w = w ∧ (ServeHTTP m g w r).r = r
      ∧ (ServeHTTP m g w r).g.registered = g.registered := by
  unfold ServeHTTP NewCounterVec
  simp only [h, hrej, if_false, Bool.false_eq_true, hv]
  exact ⟨trivial, trivial, trivial, trivial, trivial⟩

/-- C12: `ServeHTTP` hands the downstream handler the response writer and the
request it received, and writes to neither: afterwards they are what the
handler left, or, when the handler was not called (a rejected registration) or
panicked, what they were. Of the instance it keeps the handler, the name and the
configuration; what it changes is the family pointer with its counters and the
`sync.Once`, and in the registry only what the registration adds. -/
theorem ServeHTTP_passive (m : URLMetrics) (g : World) (w : ResponseWriter) (r : Request) :
    (((ServeHTTP m g w r).w = w ∧ (ServeHTTP m g w r).r = r
          ∧ ((ServeHTTP m g w r).panic = some Panic.registration ∨ m.next w r = none))
        ∨ m.next w r = some ((ServeHTTP m g w r).w, (ServeHTTP m g w r).r))
      ∧ (ServeHTTP m g w r).m.next = m.next
      ∧ (ServeHTTP m g w r).m.name = m.name
      ∧ (ServeHTTP m g w r).m.config = m.config
      ∧ (ServeHTTP m g w r).g.accepts = g.accepts
      ∧ (m.once = true → (ServeHTTP m g w r).g = g) := by
  by_cases ho : m.once = true
  · cases hn : m.next w r with
    | none => simp [ServeHTTP, ho, hn]
    | some p =>
      obtain ⟨w1, r1⟩ := p
      cases hr : r1.Response with
      | none => simp [ServeHTTP, ho, hn, hr]
      | some resp =>
        cases hv : m.requestsTotal with
        | none => simp [ServeHTTP, ho, hn, hr, hv]
        | some v =>
          cases hi : v.incWithLabelValues
              [normalizeUri (safeLabel r1.Path), r1.Method, resp.Status] <;>
            simp [ServeHTTP, ho, hn, hr, hv, hi]
  · by_cases hok : g.accepts m.config.MetricName = true ∧ m.config.MetricName ∉ g.registered
    · cases hn : m.next w r with
      | none => simp [ServeHTTP, NewCounterVec, ho, hok, hn]
      | some p =>
        obtain ⟨w1, r1⟩ := p
        cases hr : r1.Response with
        | none => simp [ServeHTTP, NewCounterVec, ho, hok, hn, hr]
        | some resp =>
          cases hi : CounterVec.incWithLabelValues
              { Name := m.config.MetricName,
                Help := lit "Total number of HTTP requests by URL",
                labelNames := [lit "url", lit "method", lit "status"], series := [] }
              [normalizeUri (safeLabel r1.Path), r1.Method, resp.Status] <;>
            simp [ServeHTTP, NewCounterVec, ho, hok, hn, hr, hi]
    · simp [ServeHTTP, NewCounterVec, ho, hok]

/-- The request of `TestDemo` on an instance that has served a request already,
an instance of C12. -/
theorem ServeHTTP_passive_witness :
    (serve (demoInstance okNext, emptyWorld) (newRecorder, itemsRequest)).1.once = true
      ∧ (ServeHTTP (serve (demoInstance okNext, emptyWorld) (newRecorder, itemsRequest)).1
          (serve (demoInstance okNext, emptyWorld) (newRecorder, itemsRequest)).2
          newRecorder testDemoRequest).g
        = (serve (demoInstance okNext, emptyWorld) (newRecorder, itemsRequest)).2 :=
  ⟨by decide, (ServeHTTP_passive _ _ newRecorder testDemoRequest).2.2.2.2.2 (by decide)⟩

/-- C20: when the registration of the first request on an instance built by
`New` is rejected, `ServeHTTP` panics with the failure of `MustRegister`, having
made its one call of `promauto.NewCounterVec`; whatever requests follow, none
calls it again or changes the registry, the family pointer stays nil, and every
further request panics, so none records an increment. -/
theorem registration_failure_final (next : Handler) (config : Config) (name : GoString)
    (g : World) (req : ResponseWriter × Request) (reqs : List (ResponseWriter × Request))
    (w : ResponseWriter) (r : Request)
    (hrej : ¬ (g.accepts config.MetricName = true ∧ config.MetricName ∉ g.registered)) :
    (ServeHTTP (New next config name).1 g req.1 req.2).panic = some Panic.registration
      ∧ (serve ((New next config name).1, g) req).2.calls
          = g.calls ++ [(config.MetricName, [lit "url", lit "method", lit "status"])]
      ∧ (serve ((New next config name).1, g) req).2.registered = g.registered
      ∧ (serveAll (serve ((New next config name).1, g) req) reqs).2
          = (serve ((New next config name).1, g) req).2
      ∧ (serveAll (serve ((New next config name).1, g) req) reqs).1.requestsTotal = none
      ∧ (ServeHTTP (serveAll (serve ((New next config name).1, g) req) reqs).1
            (serveAll (serve ((New next config name).1, g) req) reqs).2 w r).panic ≠ none
      ∧ (ServeHTTP (serveAll (serve ((New next config name).1, g) req) reqs).1
            (serveAll (serve ((New next config name).1, g) req) reqs).2 w r).m.requestsTotal
          = none := by
  have hf := ServeHTTP_fresh (New next config name).1 g req.1 req.2 rfl
  have hr := ServeHTTP_fresh_rejected (New next config name).1 g req.1 req.2 rfl rfl hrej
  have hd := serveAll_done reqs (serve ((New next config name).1, g) req) hf.1
  have hn := serveAll_done_nil reqs (serve ((New next config name).1, g) req) hf.1 hr.2.1
  have hl := ServeHTTP_done_nil _ (serveAll (serve ((New next config name).1, g) req) reqs).2
    w r hn.1 hn.2
  exact ⟨hr.1, hf.2.1, hr.2.2.2.2, hd.1, hn.2, hl.2, hl.1⟩

/-- A registry in which the default metric name is registered already. -/
theorem registration_failure_final_witness :
    ¬ (({ emptyWorld with registered := [CreateConfig.MetricName] } : World).accepts
          CreateConfig.MetricName = true
        ∧ CreateConfig.MetricName
          ∉ ({ emptyWorld with registered := [CreateConfig.MetricName] } : World).registered)
      ∧ (ServeHTTP (New okNext CreateConfig (lit "demo-plugin")).1
          { emptyWorld with registered := [CreateConfig.MetricName] }
          newRecorder redirectedRequest).panic = some Panic.registration :=
  ⟨by decide,
    (registration_failure_final okNext CreateConfig (lit "demo-plugin")
      { emptyWorld with registered := [CreateConfig.MetricName] }
      (newRecorder, redirectedRequest) [] newRecorder redirectedRequest (by decide)).1⟩

/-! ## Strings in which no step finds a match -/

/-- A subject in which the pattern matches at no position is returned
unchanged, whatever its bytes. -/
theorem replaceAllFuel_id_of_no_match (re : Regexp) (repl : GoString) :
    ∀ (fuel : Nat) (s : GoString), (∀ t, t <:+ s → re t = none) →
      replaceAllFuel re repl fuel s = s := by
  intro fuel
  induction fuel with
  | zero => intro s _; rfl
  | succ fuel ih =>
    intro s hno
    cases s with
    | nil => rfl
    | cons b rest =>
      simp only [replaceAllFuel, hno _ (List.suffix_refl _)]
      rw [ih _ (fun t ht => hno t (ht.trans (List.drop_suffix _ _))), List.take_append_drop]

theorem hasSlashDigit_suffix {s : GoString} :
    ∀ {t : GoString}, t <:+ s → hasSlashDigit s = false → hasSlashDigit t = false := by
  induction s with
  | nil => intro t ht _; rw [List.suffix_nil.mp ht]; rfl
  | cons b rest ih =>
    intro t ht h
    rcases List.suffix_cons_iff.mp ht with rfl | ht
    · exact h
    · simp only [hasSlashDigit, Bool.or_eq_false_iff] at h
      exact ih ht h.2

theorem startsWithDigit_of_takeWhile {s : GoString}
    (h : 0 < (s.takeWhile isDigit).length) : startsWithDigit s = true := by
  cases s with
  | nil => simp at h
  | cons d rest =>
    by_cases hd : isDigit d = true
    · simpa [startsWithDigit] using hd
    · rw [List.takeWhile_cons_of_neg hd] at h; simp at h

theorem reDigits_none_of_hasSlashDigit {t : GoString} (h : hasSlashDigit t = false) :
    reDigits t = none := by
  cases t with
  | nil => rfl
  | cons b rest =>
    simp only [hasSlashDigit, Bool.or_eq_false_iff, Bool.and_eq_false_iff, beq_eq_false_iff_ne,
      ne_eq] at h
    simp only [reDigits, ite_eq_right_iff]
    rintro ⟨hb, hpos⟩
    have := startsWithDigit_of_takeWhile hpos
    rcases h.1 with h1 | h1
    · exact absurd hb h1
    · rw [this] at h1; cases h1

theorem hasDoubleUnderscore_suffix {s : GoString} :
    ∀ {t : GoString}, t <:+ s → hasDoubleUnderscore s = false →
      hasDoubleUnderscore t = false := by
  induction s with
  | nil => intro t ht _; rw [List.suffix_nil.mp ht]; rfl
  | cons b rest ih =>
    intro t ht h
    rcases List.suffix_cons_iff.mp ht with rfl | ht
    · exact h
    · simp only [hasDoubleUnderscore, Bool.or_eq_false_iff] at h
      exact ih ht h.2

theorem reDoubleUnderscore_none_of_hasDoubleUnderscore {t : GoString}
    (h : hasDoubleUnderscore t = false) : reDoubleUnderscore t = none := by
  cases t with
  | nil => exact reDoubleUnderscore_nil
  | cons b rest =>
    by_cases hb : b = 95
    · subst hb
      cases rest with
      | nil => simp [reDoubleUnderscore]
      | cons c rest =>
        by_cases hc : c = 95
        · subst hc; simp [hasDoubleUnderscore, startsWithUnderscore] at h
        · simp [reDoubleUnderscore, hc]
    · exact reDoubleUnderscore_none rest hb

theorem trimByte_id_of_ends {s : GoString} {c : Nat} (hh : s.head? ≠ some c)
    (hl : s.getLast? ≠ some c) : TrimByte s c = s := by
  have h1 : trimRightByte s c = s := by
    unfold trimRightByte
    rw [List.rdropWhile_eq_self_iff]
    intro hne hp
    apply hl
    rw [List.getLast?_eq_getLast _ hne]
    simpa using hp
  unfold TrimByte
  rw [h1]
  unfold trimLeftByte
  rw [List.dropWhile_eq_self_iff]
  intro hpos hp
  apply hh
  cases s with
  | nil => simp at hpos
  | cons b rest => simpa using hp

/-- On a string of whitelisted bytes without a slash before a digit and without
two consecutive underscores, the four replacement steps change nothing. -/
theorem replacements_id {s : GoString} (hw : s.all isWhitelisted = true)
    (hd : hasSlashDigit s = false) (hu : hasDoubleUnderscore s = false) :
    ReplaceAllString reNotWhitelisted
      (ReplaceAllString reDoubleUnderscore
        (ReplaceAllString reUUID
          (ReplaceAllString reDigits s (lit "/:id")) (lit "/:uuid")) (lit "_")) (lit "_")
      = s := by
  have hall := List.all_eq_true.mp hw
  have h45 : 45 ∉ s := fun hm => absurd (hall 45 hm) (by decide)
  have e0 : ReplaceAllString reDigits s (lit "/:id") = s :=
    replaceAllFuel_id_of_no_match _ _ _ s
      (fun t ht => reDigits_none_of_hasSlashDigit (hasSlashDigit_suffix ht hd))
  have e1 : ReplaceAllString reUUID s (lit "/:uuid") = s :=
    replaceAllFuel_id_of_no_match _ _ _ s
      (fun t ht => reUUID_none (fun hm => h45 (ht.subset hm)))
  have e2 : ReplaceAllString reDoubleUnderscore s (lit "_") = s :=
    replaceAllFuel_id_of_no_match _ _ _ s
      (fun t ht => reDoubleUnderscore_none_of_hasDoubleUnderscore
        (hasDoubleUnderscore_suffix ht hu))
  have e3 : ReplaceAllString reNotWhitelisted s (lit "_") = s := by
    refine replaceAllFuel_id_of_no_match _ _ _ s (fun t ht => ?_)
    cases t with
    | nil => rfl
    | cons b t => exact reNotWhitelisted_none t (hall b (ht.subset (List.mem_cons_self _ _)))
  rw [e0, e1, e2, e3]

/-- C14: a string of whitelisted characters that contains no slash immediately
followed by a digit and no two consecutive underscores, and that neither begins
nor ends with an underscore, is returned unchanged by `safeLabel`; in particular
the empty string is. -/
theorem safeLabel_no_match :
    (∀ s : GoString, s.all isWhitelisted = true → hasSlashDigit s = false →
        hasDoubleUnderscore s = false → s.head? ≠ some 95 → s.getLast? ≠ some 95 →
        safeLabel s = s)
      ∧ safeLabel (lit "") = lit "" := by
  refine ⟨?_, by decide⟩
  intro s hw hd hu hh hl
  simp only [safeLabel, replacements_id hw hd hu]
  exact trimByte_id_of_ends hh hl

/-- The label `/users/:id/a_b`, an instance of C14. -/
theorem safeLabel_no_match_witness :
    (lit "/users/:id/a_b").all isWhitelisted = true
      ∧ hasSlashDigit (lit "/users/:id/a_b") = false
      ∧ hasDoubleUnderscore (lit "/users/:id/a_b") = false
      ∧ safeLabel (lit "/users/:id/a_b") = lit "/users/:id/a_b" :=
  ⟨by decide, by decide, by decide,
    safeLabel_no_match.1 (lit "/users/:id/a_b") (by decide) (by decide) (by decide)
      (by decide) (by decide)⟩

/-! ## `normalizeUri` against its specification -/

/-- The bytes of a rune that starts with a non-ASCII byte are all non-ASCII. -/
theorem decode_take_ge {b : Nat} (rest : GoString) (hb : 0x80 ≤ b) :
    ∀ c ∈ (b :: rest).take (DecodeRuneInString (b :: rest)).2, 0x80 ≤ c := by
  cases hf : first b with
  | ascii => exact absurd (first_ascii_lt hf) (by omega)
  | invalid => simp [DecodeRuneInString, hf, hb]
  | lead sz lo hi =>
    have hbd := first_lead_bounds hf
    simp only [DecodeRuneInString, hf, locb, hicb]
    repeat' split
    all_goals
      simp only [List.take_succ_cons, List.take_zero, List.mem_cons, List.not_mem_nil, or_false]
      intro c hc
      omega

theorem drop_length_takeWhile (p : Nat → Bool) (l : GoString) :
    l.drop (l.takeWhile p).length = l.dropWhile p := by
  induction l with
  | nil => rfl
  | cons b l ih =>
    by_cases hb : p b = true
    · rw [List.takeWhile_cons_of_pos hb, List.dropWhile_cons_of_pos hb, List.length_cons,
        List.drop_succ_cons, ih]
    · rw [List.takeWhile_cons_of_neg hb, List.dropWhile_cons_of_neg hb]
      rfl

theorem normalizeUriSpec_inRun (s : GoString) :
    normalizeUriSpec true s = normalizeUriSpec false (s.dropWhile isDigit) := by
  induction s with
  | nil => rfl
  | cons b rest ih =>
    by_cases hd : isDigit b = true
    · rw [List.dropWhile_cons_of_pos hd, ← ih]
      simp [normalizeUriSpec, hd]
    · rw [List.dropWhile_cons_of_neg hd]
      simp [normalizeUriSpec, hd]

theorem normalizeUriSpec_copy (l t : GoString) (h : ∀ c ∈ l, c ≠ 47) :
    normalizeUriSpec false (l ++ t) = l ++ normalizeUriSpec false t := by
  induction l with
  | nil => rfl
  | cons b l ih =>
    have hb := h b (List.mem_cons_self _ _)
    rw [List.cons_append, List.cons_append, ← ih (fun c hc => h c (List.mem_cons_of_mem _ hc))]
    simp [normalizeUriSpec, hb]

theorem takeWhile_of_startsWithDigit {s : GoString} (h : startsWithDigit s = true) :
    0 < (s.takeWhile isDigit).length := by
  cases s with
  | nil => cases h
  | cons d rest =>
    have hd : isDigit d = true := h
    rw [List.takeWhile_cons_of_pos hd]
    simp

theorem replaceAllFuel_digits_spec :
    ∀ (fuel : Nat) (s : GoString), s.length < fuel →
      replaceAllFuel reDigits (lit "/{id}") fuel s = normalizeUriSpec false s := by
  intro fuel
  induction fuel with
  | zero => intro s h; omega
  | succ fuel ih =>
    intro s hlen
    cases s with
    | nil => rfl
    | cons b rest =>
      simp only [List.length_cons] at hlen
      by_cases hm : b = 47 ∧ 0 < (rest.takeWhile isDigit).length
      · have hre : reDigits (b :: rest) = some (1 + (rest.takeWhile isDigit).length) := by
          simp [reDigits, hm]
        have hdrop : (b :: rest).drop (1 + (rest.takeWhile isDigit).length)
            = rest.dropWhile isDigit := by
          rw [Nat.add_comm, List.drop_succ_cons, drop_length_takeWhile]
        have hlen2 : (rest.dropWhile isDigit).length < fuel :=
          Nat.lt_of_le_of_lt (List.dropWhile_suffix _).length_le (by omega)
        rw [replaceAllFuel_some fuel hre, hdrop, ih _ hlen2]
        have hs := startsWithDigit_of_takeWhile hm.2
        simp [normalizeUriSpec, hm.1, hs, normalizeUriSpec_inRun]
      · have hre : reDigits (b :: rest) = none := by
          simp only [reDigits, ite_eq_right_iff]
          intro h; exact absurd h hm
        have hspec : normalizeUriSpec false (b :: rest) = b :: normalizeUriSpec false rest := by
          have : ¬ (b = 47 ∧ startsWithDigit rest = true) :=
            fun h => hm ⟨h.1, takeWhile_of_startsWithDigit h.2⟩
          simp only [normalizeUriSpec, Bool.false_and, Bool.false_eq_true, if_false,
            Bool.and_eq_true, beq_iff_eq, this]
        by_cases hb : b < 0x80
        · rw [replaceAllFuel_none fuel hre hb, ih rest (by omega), hspec]
        · have hw := decode_width b rest
          have hge := decode_take_ge rest (Nat.le_of_not_lt hb)
          have hlen2 : ((b :: rest).drop (DecodeRuneInString (b :: rest)).2).length < fuel := by
            simp only [List.length_drop, List.length_cons]; omega
          simp only [replaceAllFuel, hre]
          rw [ih _ hlen2, ← normalizeUriSpec_copy _ _ (fun c hc => by have := hge c hc; omega),
            List.take_append_drop]

/-- C13: `normalizeUri` is a total function and returns, for every string, what
the specification describes: every slash followed by digits is replaced,
together with the whole run of digits, by `/{id}`, and all other bytes are kept
in order; in particular `/users/42/orders/7` becomes `/users/{id}/orders/{id}`. -/
theorem normalizeUri_spec (uri : GoString) :
    normalizeUri uri = normalizeUriSpec false uri
      ∧ normalizeUri (lit "/users/42/orders/7") = lit "/users/{id}/orders/{id}" :=
  ⟨replaceAllFuel_digits_spec _ uri (Nat.lt_succ_self _), by decide⟩

/-! ## No slash before a digit survives `safeLabel` -/

theorem chain_iff_hasSlashDigit (s : GoString) :
    List.Chain' slashFree s ↔ hasSlashDigit s = false := by
  induction s with
  | nil => simp [hasSlashDigit]
  | cons b rest ih =>
    rw [List.chain'_cons', ih]
    cases rest with
    | nil => simp [hasSlashDigit, startsWithDigit]
    | cons d rest =>
      simp only [List.head?_cons, Option.mem_def, Option.some.injEq, forall_eq', slashFree,
        hasSlashDigit, startsWithDigit, Bool.or_eq_false_iff, Bool.and_eq_false_iff,
        beq_eq_false_iff_ne, ne_eq, not_and, Bool.not_eq_true]
      constructor
      · rintro ⟨h1, h2⟩
        refine ⟨?_, h2⟩
        by_cases hb : b = 47
        · exact Or.inr (h1 hb)
        · exact Or.inl hb
      · rintro ⟨h1, h2⟩
        refine ⟨fun hb => ?_, h2⟩
        rcases h1 with h1 | h1
        · exact absurd hb h1
        · exact h1

theorem chain_of_ne_slash {l : GoString} (h : ∀ c ∈ l, c ≠ 47) : List.Chain' slashFree l := by
  induction l with
  | nil => exact List.chain'_nil
  | cons b l ih =>
    rw [List.chain'_cons']
    exact ⟨fun y _ hb => h b (List.mem_cons_self _ _) hb.1,
      ih (fun c hc => h c (List.mem_cons_of_mem _ hc))⟩

theorem head?_take_cons (b : Nat) (rest : GoString) {w : Nat} (hw : 1 ≤ w) :
    ((b :: rest).take w).head? = some b := by
  cases w with
  | zero => omega
  | succ w => rfl

/-- A replacement that neither starts with a digit nor ends with a slash, put
in place of the matches of any pattern, brings no slash before a digit. -/
theorem replaceAllFuel_chain (re : Regexp) (repl : GoString) (hne : repl ≠ [])
    (hc : List.Chain' slashFree repl) (hlast : repl.getLast? ≠ some 47)
    (hhead : ∀ y ∈ repl.head?, isDigit y = false) :
    ∀ (fuel : Nat) (t : GoString), List.Chain' slashFree t →
      List.Chain' slashFree (replaceAllFuel re repl fuel t)
        ∧ ∀ y ∈ (replaceAllFuel re repl fuel t).head?, isDigit y = true → y ∈ t.head? := by
  intro fuel
  induction fuel with
  | zero => intro t ht; exact ⟨ht, fun y hy _ => hy⟩
  | succ fuel ih =>
    intro t ht
    cases t with
    | nil => exact ⟨List.chain'_nil, fun y hy _ => hy⟩
    | cons b rest =>
      cases hre : re (b :: rest) with
      | some n =>
        rw [replaceAllFuel_some fuel hre]
        have hX := ih _ (ht.drop n)
        refine ⟨List.Chain'.append hc hX.1 (fun x hx y _ hxy => hlast (hxy.1 ▸ hx)), ?_⟩
        intro y hy hd
        rw [List.head?_append_of_ne_nil _ hne] at hy
        rw [hhead y hy] at hd
        cases hd
      | none =>
        have hw := decode_width b rest
        simp only [replaceAllFuel, hre]
        have hX := ih _ (ht.drop (DecodeRuneInString (b :: rest)).2)
        have hsplit := List.chain'_append.mp
          (show List.Chain' slashFree ((b :: rest).take (DecodeRuneInString (b :: rest)).2
            ++ (b :: rest).drop (DecodeRuneInString (b :: rest)).2) by
              rw [List.take_append_drop]; exact ht)
        refine ⟨List.Chain'.append hsplit.1 hX.1 ?_, ?_⟩
        · intro x hx y hy hxy
          exact hsplit.2.2 x hx y (hX.2 y hy hxy.2) hxy
        · intro y hy _
          have hne2 : (b :: rest).take (DecodeRuneInString (b :: rest)).2 ≠ [] := by
            intro e
            have := head?_take_cons b rest hw.1
            rw [e] at this; cases this
          rw [List.head?_append_of_ne_nil _ hne2, head?_take_cons b rest hw.1] at hy
          exact hy

theorem lit_slash_id : lit "/:id" = [47, 58, 105, 100] := by decide

theorem lit_slash_uuid : lit "/:uuid" = [47, 58, 117, 117, 105, 100] := by decide

theorem chain_lit_slash_id : List.Chain' slashFree (lit "/:id") := by
  rw [lit_slash_id]
  simp [slashFree, isDigit]

theorem chain_lit_slash_uuid : List.Chain' slashFree (lit "/:uuid") := by
  rw [lit_slash_uuid]
  simp [slashFree, isDigit]

/-- After the digit step no slash stands before a digit. -/
theorem replaceAllFuel_digits_chain :
    ∀ (fuel : Nat) (t : GoString), t.length < fuel →
      List.Chain' slashFree (replaceAllFuel reDigits (lit "/:id") fuel t)
        ∧ ∀ y ∈ (replaceAllFuel reDigits (lit "/:id") fuel t).head?,
            isDigit y = true → y ∈ t.head? := by
  intro fuel
  induction fuel with
  | zero => intro t h; omega
  | succ fuel ih =>
    intro t hlen
    cases t with
    | nil => exact ⟨List.chain'_nil, fun y hy _ => hy⟩
    | cons b rest =>
      simp only [List.length_cons] at hlen
      by_cases hm : b = 47 ∧ 0 < (rest.takeWhile isDigit).length
      · have hre : reDigits (b :: rest) = some (1 + (rest.takeWhile isDigit).length) := by
          simp [reDigits, hm]
        rw [replaceAllFuel_some fuel hre]
        have hX := ih ((b :: rest).drop (1 + (rest.takeWhile isDigit).length))
          (by simp only [List.length_drop, List.length_cons]; omega)
        refine ⟨List.Chain'.append chain_lit_slash_id hX.1 ?_, ?_⟩
        · intro x hx y _ hxy
          rw [lit_slash_id] at hx
          have : x = 100 := by simpa using hx.symm
          omega
        · intro y hy hd
          rw [lit_slash_id] at hy
          have : y = 47 := by simpa using hy.symm
          subst this
          cases hd
      · have hre : reDigits (b :: rest) = none := by
          simp only [reDigits, ite_eq_right_iff]
          intro h; exact absurd h hm
        by_cases hb : b < 0x80
        · rw [replaceAllFuel_none fuel hre hb]
          have hX := ih rest (by omega)
          refine ⟨hX.1.cons' ?_, fun y hy _ => hy⟩
          intro y hy hxy
          have hy2 := hX.2 y hy hxy.2
          cases rest with
          | nil => cases hy2
          | cons d rest =>
            have : d = y := by simpa using hy2
            subst this
            apply hm
            refine ⟨hxy.1, ?_⟩
            rw [List.takeWhile_cons_of_pos hxy.2]
            simp
        · have hw := decode_width b rest
          have hge := decode_take_ge rest (Nat.le_of_not_lt hb)
          simp only [replaceAllFuel, hre]
          have hX := ih ((b :: rest).drop (DecodeRuneInString (b :: rest)).2)
            (by simp only [List.length_drop, List.length_cons]; omega)
          have hne2 : (b :: rest).take (DecodeRuneInString (b :: rest)).2 ≠ [] := by
            intro e
            have := head?_take_cons b rest hw.1
            rw [e] at this; cases this
          refine ⟨List.Chain'.append
            (chain_of_ne_slash (fun c hc => by have := hge c hc; omega)) hX.1 ?_, ?_⟩
          · intro x hx y _ hxy
            have := hge x (List.mem_of_mem_getLast? hx)
            have := hxy.1
            omega
          · intro y hy _
            rw [List.head?_append_of_ne_nil _ hne2, head?_take_cons b rest hw.1] at hy
            exact hy

theorem trimByte_chain {s : GoString} (c : Nat) (h : List.Chain' slashFree s) :
    List.Chain' slashFree (TrimByte s c) :=
  List.Chain'.suffix
    ( List.Chain'.prefix h (List.rdropWhile_prefix (fun b => b == c) s))
    (List.dropWhile_suffix _)

/-- The result of `safeLabel` has no slash immediately before a digit. -/
theorem safeLabel_chain (s : GoString) : List.Chain' slashFree (safeLabel s) := by
  have h1 := (replaceAllFuel_digits_chain _ s (Nat.lt_succ_self _)).1
  have h2 := (replaceAllFuel_chain reUUID (lit "/:uuid") (by decide) chain_lit_slash_uuid
    (by decide) (by decide) ((ReplaceAllString reDigits s (lit "/:id")).length + 1) _ h1).1
  have h3 := (replaceAllFuel_chain reDoubleUnderscore (lit "_") (by decide)
    (by rw [lit_underscore]; exact List.chain'_singleton _) (by decide) (by decide)
    ((ReplaceAllString reUUID (ReplaceAllString reDigits s (lit "/:id"))
      (lit "/:uuid")).length + 1) _ h2).1
  have h4 := (replaceAllFuel_chain reNotWhitelisted (lit "_") (by decide)
    (by rw [lit_underscore]; exact List.chain'_singleton _) (by decide) (by decide)
    ((ReplaceAllString reDoubleUnderscore (ReplaceAllString reUUID
      (ReplaceAllString reDigits s (lit "/:id")) (lit "/:uuid")) (lit "_")).length + 1) _ h3).1
  exact trimByte_chain 95 h4

/-- On a result of `safeLabel`, `normalizeUri` changes nothing. -/
theorem normalizeUri_safeLabel_eq (s : GoString) :
    normalizeUri (safeLabel s) = safeLabel s :=
  replaceAllFuel_id_of_no_match _ _ _ _ (fun _ ht => reDigits_none_of_hasSlashDigit
    (hasSlashDigit_suffix ht ((chain_iff_hasSlashDigit _).mp (safeLabel_chain s))))

/-- Every byte of a result of `safeLabel` is whitelisted. -/
theorem safeLabel_mem_whitelisted (s : GoString) :
    ∀ b ∈ safeLabel s, isWhitelisted b = true := by
  intro b hb
  simp only [safeLabel] at hb
  have hb := trimByte_subset _ _ hb
  simp only [ReplaceAllString, lit_underscore] at hb
  exact replaceAllFuel_notWhitelisted _ _ (Nat.lt_succ_self _) b hb

theorem incWithLabelValues_ok {v v1 : CounterVec} {lvs : List GoString}
    (h : v.incWithLabelValues lvs = .ok v1) :
    v1 = { v with series := incSeries v.series lvs } := by
  unfold CounterVec.incWithLabelValues at h
  split at h
  · cases h; rfl
  · cases h

/-- A call of `ServeHTTP` that returns normally has incremented the series whose
url label is `safeLabel` of the path the downstream handler left. -/
theorem ServeHTTP_returns (m : URLMetrics) (g : World) (w : ResponseWriter) (r : Request)
    (h : (ServeHTTP m g w r).panic = none) :
    ∃ w1 r1 resp v, m.next w r = some (w1, r1) ∧ r1.Response = some resp
      ∧ (m.once = true → m.requestsTotal = some v)
      ∧ (ServeHTTP m g w r).m.requestsTotal
          = some { v with series := incSeries v.series [safeLabel r1.Path, r1.Method, resp.Status] } := by
  by_cases ho : m.once = true
  · cases hn : m.next w r with
    | none => simp [ServeHTTP, ho, hn] at h
    | some p =>
      obtain ⟨w1, r1⟩ := p
      cases hr : r1.Response with
      | none => simp [ServeHTTP, ho, hn, hr] at h
      | some resp =>
        cases hv : m.requestsTotal with
        | none => simp [ServeHTTP, ho, hn, hr, hv] at h
        | some v =>
          cases hi : v.incWithLabelValues
              [normalizeUri (safeLabel r1.Path), r1.Method, resp.Status] with
          | error e => simp [ServeHTTP, ho, hn, hr, hv, hi] at h
          | ok v1 =>
            refine ⟨w1, r1, resp, v, rfl, hr, fun _ => rfl, ?_⟩
            have := incWithLabelValues_ok hi
            rw [normalizeUri_safeLabel_eq] at this
            simp [ServeHTTP, ho, hn, hr, hv, hi, this]
  · by_cases hok : g.accepts m.config.MetricName = true ∧ m.config.MetricName ∉ g.registered
    · cases hn : m.next w r with
      | none => simp [ServeHTTP, NewCounterVec, ho, hok, hn] at h
      | some p =>
        obtain ⟨w1, r1⟩ := p
        cases hr : r1.Response with
        | none => simp [ServeHTTP, NewCounterVec, ho, hok, hn, hr] at h
        | some resp =>
          cases hi : CounterVec.incWithLabelValues
              { Name := m.config.MetricName,
                Help := lit "Total number of HTTP requests by URL",
                labelNames := [lit "url", lit "method", lit "status"], series := [] }
              [normalizeUri (safeLabel r1.Path), r1.Method, resp.Status] with
          | error e => simp [ServeHTTP, NewCounterVec, ho, hok, hn, hr, hi] at h
          | ok v1 =>
            refine ⟨w1, r1, resp,
              { Name := m.config.MetricName,
                Help := lit "Total number of HTTP requests by URL",
                labelNames := [lit "url", lit "method", lit "status"], series := [] },
              rfl, hr, fun h1 => absurd h1 ho, ?_⟩
            have := incWithLabelValues_ok hi
            rw [normalizeUri_safeLabel_eq] at this
            simp [ServeHTTP, NewCounterVec, ho, hok, hn, hr, hi, this]
    · simp [ServeHTTP, NewCounterVec, ho, hok] at h

/-- C19: for every string, `safeLabel s` contains no slash immediately followed
by a digit, so `normalizeUri` returns it unchanged and the result never
contains the braces of `{id}`; the url label of the series that a normally
returning `ServeHTTP` increments is therefore `safeLabel` of the path. -/
theorem normalizeUri_safeLabel :
    (∀ s : GoString, hasSlashDigit (safeLabel s) = false
        ∧ normalizeUri (safeLabel s) = safeLabel s
        ∧ 123 ∉ normalizeUri (safeLabel s) ∧ 125 ∉ normalizeUri (safeLabel s))
      ∧ (∀ (m : URLMetrics) (g : World) (w : ResponseWriter) (r : Request),
          (ServeHTTP m g w r).panic = none →
          ∃ w1 r1 resp v, m.next w r = some (w1, r1) ∧ r1.Response = some resp
            ∧ (m.once = true → m.requestsTotal = some v)
            ∧ (ServeHTTP m g w r).m.requestsTotal
                = some { v with series := incSeries v.series [safeLabel r1.Path, r1.Method, resp.Status] }) := by
  refine ⟨fun s => ⟨(chain_iff_hasSlashDigit _).mp (safeLabel_chain s),
    normalizeUri_safeLabel_eq s, ?_, ?_⟩, ServeHTTP_returns⟩
  · rw [normalizeUri_safeLabel_eq]
    exact fun hm => absurd (safeLabel_mem_whitelisted s 123 hm) (by decide)
  · rw [normalizeUri_safeLabel_eq]
    exact fun hm => absurd (safeLabel_mem_whitelisted s 125 hm) (by decide)

/-- The request created by a redirect, on which `ServeHTTP` returns normally, an
instance of C19. -/
theorem normalizeUri_safeLabel_witness :
    (ServeHTTP (demoInstance okNext) emptyWorld newRecorder redirectedRequest).panic = none
      ∧ ∃ w1 r1 resp v, (demoInstance okNext).next newRecorder redirectedRequest
            = some (w1, r1)
          ∧ r1.Response = some resp
          ∧ ((demoInstance okNext).once = true → (demoInstance okNext).requestsTotal = some v)
          ∧ (ServeHTTP (demoInstance okNext) emptyWorld newRecorder
                redirectedRequest).m.requestsTotal
              = some { v with series := incSeries v.series [safeLabel r1.Path, r1.Method, resp.Status] } :=
  ⟨by decide,
    normalizeUri_safeLabel.2 (demoInstance okNext) emptyWorld newRecorder redirectedRequest
      (by decide)⟩

/-! ## Decoding what was encoded -/

theorem first_lead_exact {b sz lo hi : Nat} (h : first b = .lead sz lo hi) :
    0xC2 ≤ b ∧ b ≤ 0xF4 ∧
      ((sz = 2 ∧ b < 0xE0 ∧ lo = 0x80 ∧ hi = 0xBF)
        ∨ (sz = 3 ∧ b = 0xE0 ∧ lo = 0xA0 ∧ hi = 0xBF)
        ∨ (sz = 3 ∧ 0xE0 < b ∧ b < 0xF0 ∧ b ≠ 0xED ∧ lo = 0x80 ∧ hi = 0xBF)
        ∨ (sz = 3 ∧ b = 0xED ∧ lo = 0x80 ∧ hi = 0x9F)
        ∨ (sz = 4 ∧ b = 0xF0 ∧ lo = 0x90 ∧ hi = 0xBF)
        ∨ (sz = 4 ∧ 0xF0 < b ∧ b < 0xF4 ∧ lo = 0x80 ∧ hi = 0xBF)
        ∨ (sz = 4 ∧ b = 0xF4 ∧ lo = 0x80 ∧ hi = 0x8F)) := by
  unfold first at h
  simp only [locb, hicb] at h
  repeat' split at h
  all_goals cases h
  all_goals
    refine ⟨by omega, by omega, ?_⟩
    first
      | (simp; done)
      | (simp; omega)

theorem first_invalid {b : Nat} (h : first b = .invalid) : (0x80 ≤ b ∧ b < 0xC2) ∨ 0xF4 < b := by
  unfold first at h
  repeat' split at h
  all_goals first
    | omega
    | cases h

/-- The decoder returns the code point that was encoded, and its width. -/
theorem decode_encodeRune {c : Nat} (hc : validScalar c = true) (t : GoString) :
    DecodeRuneInString (encodeRune c ++ t) = (c, (encodeRune c).length) := by
  simp only [validScalar, Bool.or_eq_true, Bool.and_eq_true, decide_eq_true_eq] at hc
  unfold encodeRune
  split
  · rename_i h1
    exact decode_ascii t h1
  · split
    · rename_i h1 h2
      cases hf : first (0xC0 + c / 64) with
      | ascii => have := first_ascii_lt hf; omega
      | invalid => have := first_invalid hf; omega
      | lead sz lo hi =>
        have hbd := first_lead_exact hf
        simp only [List.cons_append, List.nil_append, DecodeRuneInString, hf, List.length_cons,
          List.length_nil, locb, hicb]
        repeat' split
        all_goals first
          | (exfalso; omega)
          | (simp only [Prod.mk.injEq, and_true]; omega)
    · split
      · rename_i h1 h2 h3
        cases hf : first (0xE0 + c / 4096) with
        | ascii => have := first_ascii_lt hf; omega
        | invalid => have := first_invalid hf; omega
        | lead sz lo hi =>
          have hbd := first_lead_exact hf
          simp only [List.cons_append, List.nil_append, DecodeRuneInString, hf,
            List.length_cons, List.length_nil, locb, hicb]
          repeat' split
          all_goals first
            | (exfalso; omega)
            | (simp only [Prod.mk.injEq, and_true]; omega)
      · rename_i h1 h2 h3
        cases hf : first (0xF0 + c / 262144) with
        | ascii => have := first_ascii_lt hf; omega
        | invalid => have := first_invalid hf; omega
        | lead sz lo hi =>
          have hbd := first_lead_exact hf
          simp only [List.cons_append, List.nil_append, DecodeRuneInString, hf,
            List.length_cons, List.length_nil, locb, hicb]
          repeat' split
          all_goals first
            | (exfalso; omega)
            | (simp only [Prod.mk.injEq, and_true]; omega)

/-! ## The whitelist step, code point by code point -/

theorem encodeRune_length (c : Nat) :
    1 ≤ (encodeRune c).length := by
  unfold encodeRune
  repeat' split
  all_goals simp

theorem mem_encodeRune {b c : Nat} (h : b ∈ encodeRune c) : b = c ∨ 0x80 ≤ b := by
  unfold encodeRune at h
  repeat' split at h
  all_goals
    simp only [List.mem_cons, List.mem_singleton, List.not_mem_nil, or_false] at h
    omega

theorem mem_encodeString {b : Nat} {cs : List Nat} (h : b ∈ encodeString cs) :
    b ∈ cs ∨ 0x80 ≤ b := by
  unfold encodeString at h
  obtain ⟨c, hc, hb⟩ := List.mem_flatMap.mp h
  rcases mem_encodeRune hb with rfl | h
  · exact Or.inl hc
  · exact Or.inr h

theorem replaceAllFuel_some_of_ne_nil {re : Regexp} {repl s : GoString} {n : Nat}
    (fuel : Nat) (hs : s ≠ []) (h : re s = some n) :
    replaceAllFuel re repl (fuel + 1) s = repl ++ replaceAllFuel re repl fuel (s.drop n) := by
  cases s with
  | nil => exact absurd rfl hs
  | cons b rest => exact replaceAllFuel_some fuel h

theorem reNotWhitelisted_encodeRune {c : Nat} (hc : validScalar c = true)
    (hw : isWhitelisted c = false) (t : GoString) :
    reNotWhitelisted (encodeRune c ++ t) = some (encodeRune c).length := by
  have hd := decode_encodeRune hc t
  have hlen := encodeRune_length c
  cases he : encodeRune c ++ t with
  | nil =>
    have : (encodeRune c ++ t).length = 0 := by rw [he]; rfl
    rw [List.length_append] at this
    omega
  | cons b rest =>
    rw [he] at hd
    simp [reNotWhitelisted, hd, hw]

/-- The whitelist step writes one underscore for each code point outside the
whitelist and keeps the others. -/
theorem replaceAllFuel_notWhitelisted_encodeString :
    ∀ (cs : List Nat) (fuel : Nat), cs.all validScalar = true →
      (encodeString cs).length < fuel →
      replaceAllFuel reNotWhitelisted [95] fuel (encodeString cs) = cs.map sanitizeRune := by
  intro cs
  induction cs with
  | nil => intro fuel _ _; cases fuel <;> rfl
  | cons c cs ih =>
    intro fuel hv hlen
    simp only [List.all_cons, Bool.and_eq_true] at hv
    have hcs : encodeString (c :: cs) = encodeRune c ++ encodeString cs := by
      simp [encodeString]
    rw [hcs] at hlen ⊢
    rw [List.length_append] at hlen
    have hl := encodeRune_length c
    cases fuel with
    | zero => omega
    | succ fuel =>
      by_cases hw : isWhitelisted c = true
      · have hc := isWhitelisted_lt hw
        have he : encodeRune c = [c] := by simp [encodeRune, hc]
        rw [he] at hlen ⊢
        simp only [List.length_singleton] at hlen
        rw [List.singleton_append,
          replaceAllFuel_none fuel (reNotWhitelisted_none _ hw) hc,
          ih fuel hv.2 (by omega)]
        simp [sanitizeRune, hw]
      · have hw2 : isWhitelisted c = false := by simpa using hw
        have hne : encodeRune c ++ encodeString cs ≠ [] := by
          intro e
          have : (encodeRune c ++ encodeString cs).length = 0 := by rw [e]; rfl
          rw [List.length_append] at this
          omega
        rw [replaceAllFuel_some_of_ne_nil fuel hne (reNotWhitelisted_encodeRune hv.1 hw2 _),
          List.drop_left, ih fuel hv.2 (by omega)]
        simp [sanitizeRune, hw2]

theorem reUUID_none_of_hasUUID {s : GoString} :
    ∀ {t : GoString}, t <:+ s → hasUUID s = false → reUUID t = none := by
  induction s with
  | nil => intro t ht _; rw [List.suffix_nil.mp ht]; rfl
  | cons b rest ih =>
    intro t ht h
    simp only [hasUUID, Bool.or_eq_false_iff] at h
    rcases List.suffix_cons_iff.mp ht with rfl | ht
    · simpa using h.1
    · exact ih ht h.2

theorem sanitizeRune_RuneError_free {b : Nat} {rest : GoString}
    (h : isWhitelisted (DecodeRuneInString (b :: rest)).1 = false) :
    sanitizeRune (DecodeRuneInString (b :: rest)).1 = 95 := by
  simp [sanitizeRune, h]

/-- The whitelist step, rune by rune, on any string. -/
theorem replaceAllFuel_notWhitelisted_runes :
    ∀ (fuel : Nat) (s : GoString), s.length ≤ fuel →
      replaceAllFuel reNotWhitelisted [95] (fuel + 1) s
        = (runesFuel fuel s).map sanitizeRune := by
  intro fuel
  induction fuel with
  | zero =>
    intro s h
    have : s = [] := List.length_eq_zero.mp (Nat.le_zero.mp h)
    subst this
    rfl
  | succ fuel ih =>
    intro s hlen
    cases s with
    | nil => rfl
    | cons b rest =>
      simp only [List.length_cons] at hlen
      by_cases hw : isWhitelisted (DecodeRuneInString (b :: rest)).1 = true
      · have hd := decode_whitelisted hw
        have hre : reNotWhitelisted (b :: rest) = none := by simp [reNotWhitelisted, hw]
        rw [replaceAllFuel_none _ hre hd.1, ih rest (by omega)]
        simp only [runesFuel, hd.2, List.drop_succ_cons, List.drop_zero, List.map_cons]
        rw [hd.2] at hw
        simp [sanitizeRune, hw]
      · have hw2 : isWhitelisted (DecodeRuneInString (b :: rest)).1 = false := by
          simpa using hw
        have hre : reNotWhitelisted (b :: rest)
            = some (DecodeRuneInString (b :: rest)).2 := by simp [reNotWhitelisted, hw]
        have hwd := decode_width b rest
        rw [replaceAllFuel_some _ hre, ih _ (by
          simp only [List.length_drop, List.length_cons]; omega)]
        simp only [runesFuel, List.map_cons, sanitizeRune_RuneError_free hw2,
          List.singleton_append]

/-- The runes of an encoded string are its code points. -/
theorem runesFuel_encodeString :
    ∀ (cs : List Nat) (fuel : Nat), cs.all validScalar = true →
      (encodeString cs).length ≤ fuel → runesFuel fuel (encodeString cs) = cs := by
  intro cs
  induction cs with
  | nil => intro fuel _ _; cases fuel <;> rfl
  | cons c cs ih =>
    intro fuel hv hlen
    simp only [List.all_cons, Bool.and_eq_true] at hv
    have hcs : encodeString (c :: cs) = encodeRune c ++ encodeString cs := by
      simp [encodeString]
    rw [hcs] at hlen ⊢
    rw [List.length_append] at hlen
    have hl := encodeRune_length c
    have hd := decode_encodeRune hv.1 (encodeString cs)
    cases fuel with
    | zero => omega
    | succ fuel =>
      cases he : encodeRune c ++ encodeString cs with
      | nil =>
        have : (encodeRune c ++ encodeString cs).length = 0 := by rw [he]; rfl
        rw [List.length_append] at this
        omega
      | cons b rest =>
        rw [he] at hd
        simp only [runesFuel, hd]
        rw [← he, List.drop_left, ih fuel hv.2 (by omega)]

/-- C15: on a string that contains no slash immediately followed by a digit, no
UUID behind a slash and no underscore, `safeLabel` returns the runes of the
string with each one outside the whitelist replaced by a single underscore,
whatever the number of bytes of its encoding, and with leading and trailing
underscores removed; the runes of a well-formed string are its code points; in
particular `/héllo!!` becomes `/h_llo`. -/
theorem safeLabel_code_points :
    (∀ s : GoString, hasSlashDigit s = false → hasUUID s = false → 95 ∉ s →
        safeLabel s = TrimByte ((runes s).map sanitizeRune) 95)
      ∧ (∀ cs : List Nat, cs.all validScalar = true → runes (encodeString cs) = cs)
      ∧ (∀ cs : List Nat, cs.all validScalar = true →
          hasSlashDigit (encodeString cs) = false → hasUUID (encodeString cs) = false →
          95 ∉ cs →
          safeLabel (encodeString cs) = TrimByte (cs.map sanitizeRune) 95)
      ∧ safeLabel (lit "/héllo!!") = lit "/h_llo" := by
  have hgen : ∀ s : GoString, hasSlashDigit s = false → hasUUID s = false → 95 ∉ s →
      safeLabel s = TrimByte ((runes s).map sanitizeRune) 95 := by
    intro s hd hu h95
    have e0 : ReplaceAllString reDigits s (lit "/:id") = s :=
      replaceAllFuel_id_of_no_match _ _ _ _
        (fun t ht => reDigits_none_of_hasSlashDigit (hasSlashDigit_suffix ht hd))
    have e1 : ReplaceAllString reUUID s (lit "/:uuid") = s :=
      replaceAllFuel_id_of_no_match _ _ _ _ (fun t ht => reUUID_none_of_hasUUID ht hu)
    have e2 : ReplaceAllString reDoubleUnderscore s (lit "_") = s := by
      refine replaceAllFuel_id_of_no_match _ _ _ _ (fun t ht => ?_)
      cases t with
      | nil => exact reDoubleUnderscore_nil
      | cons b t =>
        exact reDoubleUnderscore_none t
          (fun e => h95 (ht.subset (e ▸ List.mem_cons_self _ _)))
    have e3 : ReplaceAllString reNotWhitelisted s (lit "_")
        = (runes s).map sanitizeRune := by
      unfold ReplaceAllString runes
      rw [lit_underscore]
      exact replaceAllFuel_notWhitelisted_runes _ s (Nat.le_refl _)
    simp only [safeLabel, e0, e1, e2, e3]
  have hrunes : ∀ cs : List Nat, cs.all validScalar = true → runes (encodeString cs) = cs :=
    fun cs hv => runesFuel_encodeString cs _ hv (Nat.le_refl _)
  refine ⟨hgen, hrunes, ?_, by decide⟩
  intro cs hv hd hu h95
  have h95s : 95 ∉ encodeString cs := by
    intro hm
    rcases mem_encodeString hm with h | h
    · exact h95 h
    · omega
  rw [hgen _ hd hu h95s, hrunes cs hv]

/-- The code points of `/héllo!!`, an instance of C15. -/
theorem safeLabel_code_points_witness :
    encodeString [47, 104, 233, 108, 108, 111, 33, 33] = lit "/héllo!!"
      ∧ TrimByte ([47, 104, 233, 108, 108, 111, 33, 33].map sanitizeRune) 95 = lit "/h_llo"
      ∧ safeLabel (encodeString [47, 104, 233, 108, 108, 111, 33, 33])
          = TrimByte ([47, 104, 233, 108, 108, 111, 33, 33].map sanitizeRune) 95 :=
  ⟨by decide, by decide,
    safeLabel_code_points.2.2.1 [47, 104, 233, 108, 108, 111, 33, 33] (by decide) (by decide)
      (by decide) (by decide)⟩

end PluginTraefik
